import Mathlib

/-!
Verification of the document-structuring and gap-differencing engine of the
bayut-competitor-analytics repository, against its natural-language spec.

The Python sources are shallowly embedded over `List Char` / `String`:
* `analyzers/analyzers/gaps.py` — `_normalize`, `update_gaps`, `new_post_strategy`
* `analyzers/gaps.py`           — `_clean`, `_norm`, the rule helpers and the
                                  per-competitor row construction of `analyze_article`
* `analyzers/parser.py`         — `_clean_text`, `_norm_heading`,
                                  `_build_headings_and_sections`, `_extract_faq_questions`

Python strings are modelled as `String`/`List Char`; `str.lower` is modelled on
the ASCII range (the only range the repository's heading data exercises), the
regex character class `\s` as the ASCII whitespace characters.  Network fetching
and BeautifulSoup parsing are external collaborators: the differ models start
from already-parsed page dictionaries, and the structurer from an element tree.
-/

/-- ASCII whitespace, the characters matched by Python's `\s` / `str.strip()`. -/
def isWsChar (c : Char) : Bool :=
  c.toNat = 32 || c.toNat = 9 || c.toNat = 10 || c.toNat = 13 || c.toNat = 12 || c.toNat = 11

/-- ASCII model of Python `str.lower` on one character. -/
def lowerChar (c : Char) : Char :=
  if 65 ≤ c.toNat ∧ c.toNat ≤ 90 then Char.ofNat (c.toNat + 32) else c

/-- Model of Python `str.lower`. -/
def lowerL (l : List Char) : List Char := l.map lowerChar

/-- The characters of the class `[\|\-\—\–•·•]` in `parser._norm_heading`. -/
def isDashChar (c : Char) : Bool :=
  c = '|' || c = '-' || c = '—' || c = '–' || c = '•' || c = '·'

/-- The characters kept by `parser._norm_heading`'s filter `[^a-z0-9\s\?\&\(\)\:\/]`. -/
def isKeptHeadingChar (c : Char) : Bool :=
  (97 ≤ c.toNat && c.toNat ≤ 122) || (48 ≤ c.toNat && c.toNat ≤ 57) || isWsChar c ||
    c = '?' || c = '&' || c = '(' || c = ')' || c = ':' || c = '/'

/-- The characters kept by `gaps._norm`'s filter `[^a-z0-9\s]`. -/
def isKeptNormChar (c : Char) : Bool :=
  (97 ≤ c.toNat && c.toNat ≤ 122) || (48 ≤ c.toNat && c.toNat ≤ 57) || isWsChar c

/-- `re.sub` of a character-class-run pattern by a single space: each maximal run
of characters satisfying `p` becomes one `' '`.  The flag records whether the
previous character was part of a run. -/
def replaceRunsAux (p : Char → Bool) : Bool → List Char → List Char
  | _, [] => []
  | prev, c :: rest =>
    if p c then
      if prev then replaceRunsAux p true rest else ' ' :: replaceRunsAux p true rest
    else c :: replaceRunsAux p false rest

/-- `re.sub(r"\s+", " ", s)`. -/
def collapseWs (l : List Char) : List Char := replaceRunsAux isWsChar false l

/-- Drop trailing whitespace (the right half of Python `str.strip()`). -/
def dropTrailWs : List Char → List Char
  | [] => []
  | c :: rest =>
    let r := dropTrailWs rest
    if r.isEmpty then (if isWsChar c then [] else [c]) else c :: r

/-- Python `str.strip()`. -/
def stripWsL (l : List Char) : List Char := dropTrailWs (l.dropWhile isWsChar)

/-- `re.sub(r"\s+", " ", s).strip()` — the body of `parser._clean_text` and
`gaps._clean` (both sources define the same function). -/
def cleanL (l : List Char) : List Char := stripWsL (collapseWs l)

/-- `parser._clean_text` / `gaps._clean` on `String`. -/
def cleanText (s : String) : String := ⟨cleanL s.data⟩

/-- `parser._norm_heading` on the character list: clean, lower, fold dash/bullet
runs to a space, drop the not-kept characters, collapse and strip whitespace. -/
def normHeadingL (l : List Char) : List Char :=
  cleanL (List.filter isKeptHeadingChar (replaceRunsAux isDashChar false (lowerL (cleanL l))))

/-- `parser._norm_heading`. -/
def normHeading (s : String) : String := ⟨normHeadingL s.data⟩

/-- `gaps._norm`: `re.sub(r"[^a-z0-9\s]", "", _clean(s).lower())`. -/
def pyNormL (l : List Char) : List Char :=
  List.filter isKeptNormChar (lowerL (cleanL l))

/-- `gaps._norm`. -/
def pyNorm (s : String) : String := ⟨pyNormL s.data⟩

/-- Accumulator-based model of Python `str.split()` (split on whitespace runs,
no empty words). -/
def splitWsAux : List Char → List Char → List (List Char)
  | [], acc => if acc.isEmpty then [] else [acc.reverse]
  | c :: rest, acc =>
    if isWsChar c then
      if acc.isEmpty then splitWsAux rest [] else acc.reverse :: splitWsAux rest []
    else splitWsAux rest (c :: acc)

/-- Python `str.split()`. -/
def splitWsL (l : List Char) : List (List Char) := splitWsAux l []

/-- Python `" ".join(words)`. -/
def joinSp : List (List Char) → List Char
  | [] => []
  | [w] => w
  | w :: ws => w ++ ' ' :: joinSp ws

/-- `analyzers/gaps._normalize`: `" ".join((text or "").lower().split())`. -/
def pyNormalizeL (l : List Char) : List Char := joinSp (splitWsL (lowerL l))

/-- `analyzers/gaps._normalize`. -/
def pyNormalize (s : String) : String := ⟨pyNormalizeL s.data⟩

example : pyNormalize "  Hello   WORLD " = "hello world" := by decide
example : normHeading " Pros — and Cons? " = "pros and cons?" := by decide
example : pyNorm "Why us?" = "why us" := by decide
example : cleanText "a\t b " = "a b" := by decide

/-! ### Whitespace normal forms -/

/-- The first character, if any, is not whitespace. -/
def headNotWs : List Char → Prop
  | [] => True
  | c :: _ => isWsChar c = false

/-- The last character, if any, is not whitespace. -/
def lastNotWs (l : List Char) : Prop :=
  match l.getLast? with
  | none => True
  | some c => isWsChar c = false

/-- No two adjacent whitespace characters. -/
def noTwoWs : List Char → Bool
  | a :: b :: t => (!(isWsChar a && isWsChar b)) && noTwoWs (b :: t)
  | _ => true

/-- Fully collapsed/stripped whitespace shape: what `cleanL` produces. -/
def wsNormal (l : List Char) : Prop :=
  noTwoWs l = true ∧ headNotWs l ∧ lastNotWs l ∧ ∀ c ∈ l, isWsChar c = true → c = ' '

theorem noTwoWs_tail {a : Char} {t : List Char} (h : noTwoWs (a :: t) = true) :
    noTwoWs t = true := by
  cases t with
  | nil => rfl
  | cons b t' => simp only [noTwoWs, Bool.and_eq_true] at h; exact h.2

theorem mem_replaceRunsAux {p : Char → Bool} {c : Char} :
    ∀ {b : Bool} {l : List Char}, c ∈ replaceRunsAux p b l → c = ' ' ∨ (c ∈ l ∧ p c = false) := by
  intro b l
  induction l generalizing b with
  | nil => simp [replaceRunsAux]
  | cons a rest ih =>
    intro h
    simp only [replaceRunsAux] at h
    by_cases hp : p a
    · simp only [hp, if_true] at h
      cases hb : b
      · rw [hb] at h
        simp only [Bool.false_eq_true, if_false, List.mem_cons] at h
        rcases h with rfl | h
        · exact Or.inl rfl
        · rcases ih h with h' | h'
          · exact Or.inl h'
          · exact Or.inr ⟨List.mem_cons_of_mem _ h'.1, h'.2⟩
      · rw [hb] at h
        simp only [if_true] at h
        rcases ih h with h' | h'
        · exact Or.inl h'
        · exact Or.inr ⟨List.mem_cons_of_mem _ h'.1, h'.2⟩
    · have hp' : p a = false := by simpa using hp
      simp only [hp', Bool.false_eq_true, if_false, List.mem_cons] at h
      rcases h with rfl | h
      · exact Or.inr ⟨List.mem_cons_self _ _, hp'⟩
      · rcases ih h with h' | h'
        · exact Or.inl h'
        · exact Or.inr ⟨List.mem_cons_of_mem _ h'.1, h'.2⟩

theorem mem_replaceRunsAux_of_mem {p : Char → Bool} {c : Char} (hc : p c = false) :
    ∀ {b : Bool} {l : List Char}, c ∈ l → c ∈ replaceRunsAux p b l := by
  intro b l
  induction l generalizing b with
  | nil => simp
  | cons a rest ih =>
    intro h
    rcases List.mem_cons.mp h with rfl | h
    · simp [replaceRunsAux, hc]
    · by_cases hp : p a <;> cases b <;>
        simp only [replaceRunsAux, hp, if_true, if_false, Bool.false_eq_true, List.mem_cons] <;>
        first
          | exact Or.inr (ih h)
          | exact ih h

theorem replaceRunsAux_eq_self {p : Char → Bool} :
    ∀ {l : List Char}, (∀ c ∈ l, p c = false) → ∀ b, replaceRunsAux p b l = l := by
  intro l
  induction l with
  | nil => intro _ b; rfl
  | cons a rest ih =>
    intro h b
    have ha : p a = false := h a (List.mem_cons_self _ _)
    simp only [replaceRunsAux, ha, Bool.false_eq_true, if_false]
    rw [ih (fun c hc => h c (List.mem_cons_of_mem _ hc)) false]

theorem collapse_shape :
    ∀ (l : List Char) (b : Bool), noTwoWs (replaceRunsAux isWsChar b l) = true ∧
      (b = true → headNotWs (replaceRunsAux isWsChar b l)) := by
  intro l
  induction l with
  | nil => intro b; exact ⟨rfl, fun _ => trivial⟩
  | cons a rest ih =>
    intro b
    by_cases ha : isWsChar a
    · cases b
      · simp only [replaceRunsAux, ha, if_true, Bool.false_eq_true, if_false]
        have h2 := (ih true).2 rfl
        have h1 := (ih true).1
        refine ⟨?_, fun h => absurd h (by simp)⟩
        cases hrr : replaceRunsAux isWsChar true rest with
        | nil => rfl
        | cons d t =>
          rw [hrr] at h2 h1
          simp only [noTwoWs, Bool.and_eq_true]
          exact ⟨by simp [headNotWs] at h2; simp [h2], h1⟩
      · simp only [replaceRunsAux, ha, if_true]
        exact ⟨(ih true).1, fun _ => (ih true).2 rfl⟩
    · have ha' : isWsChar a = false := by simpa using ha
      simp only [replaceRunsAux, ha', Bool.false_eq_true, if_false]
      refine ⟨?_, fun _ => ha'⟩
      have h1 := (ih false).1
      cases hrr : replaceRunsAux isWsChar false rest with
      | nil => rfl
      | cons d t =>
        rw [hrr] at h1
        simp only [noTwoWs, Bool.and_eq_true]
        refine ⟨by simp [ha'], h1⟩

theorem ws_mem_collapse {c : Char} {b : Bool} {l : List Char}
    (h : c ∈ replaceRunsAux isWsChar b l) (hws : isWsChar c = true) : c = ' ' := by
  rcases mem_replaceRunsAux h with h' | h'
  · exact h'
  · rw [h'.2] at hws; cases hws

theorem collapse_fix :
    ∀ {l : List Char}, (∀ c ∈ l, isWsChar c = true → c = ' ') → noTwoWs l = true →
      ∀ b, (b = true → headNotWs l) → replaceRunsAux isWsChar b l = l := by
  intro l
  induction l with
  | nil => intro _ _ b _; rfl
  | cons a rest ih =>
    intro hch hnt b hb
    by_cases ha : isWsChar a
    · have ha' : a = ' ' := hch a (List.mem_cons_self _ _) (by simpa using ha)
      cases b
      · simp only [replaceRunsAux, ha, if_true, Bool.false_eq_true, if_false]
        have hrest : replaceRunsAux isWsChar true rest = rest := by
          apply ih (fun c hc => hch c (List.mem_cons_of_mem _ hc)) (noTwoWs_tail hnt) true
          intro _
          cases rest with
          | nil => trivial
          | cons d t =>
            simp only [noTwoWs, Bool.and_eq_true, Bool.not_eq_true', Bool.and_eq_false_iff] at hnt
            rcases hnt.1 with h | h
            · rw [ha] at h; cases h
            · exact h
        rw [hrest, ha']
      · exact absurd (hb rfl) (by simp [headNotWs, ha])
    · have ha' : isWsChar a = false := by simpa using ha
      simp only [replaceRunsAux, ha', Bool.false_eq_true, if_false]
      rw [ih (fun c hc => hch c (List.mem_cons_of_mem _ hc)) (noTwoWs_tail hnt) false (by simp)]

theorem headNotWs_dropWhile (l : List Char) : headNotWs (l.dropWhile isWsChar) := by
  induction l with
  | nil => trivial
  | cons a rest ih =>
    by_cases ha : isWsChar a
    · simpa [List.dropWhile, ha] using ih
    · have ha' : isWsChar a = false := by simpa using ha
      simp [List.dropWhile, ha', headNotWs]

theorem noTwoWs_dropWhile {l : List Char} (h : noTwoWs l = true) :
    noTwoWs (l.dropWhile isWsChar) = true := by
  induction l with
  | nil => exact h
  | cons a rest ih =>
    by_cases ha : isWsChar a
    · simpa [List.dropWhile, ha] using ih (noTwoWs_tail h)
    · have ha' : isWsChar a = false := by simpa using ha
      simpa [List.dropWhile, ha'] using h

theorem mem_dropWhile_of_mem {c : Char} (hc : isWsChar c = false) {l : List Char}
    (h : c ∈ l) : c ∈ l.dropWhile isWsChar := by
  induction l with
  | nil => cases h
  | cons a rest ih =>
    rcases List.mem_cons.mp h with rfl | h
    · simp [List.dropWhile, hc]
    · by_cases ha : isWsChar a
      · simpa [List.dropWhile, ha] using ih h
      · have ha' : isWsChar a = false := by simpa using ha
        simp [List.dropWhile, ha', List.mem_cons]
        exact Or.inr h

theorem dropWhile_eq_self_of_headNotWs {l : List Char} (h : headNotWs l) :
    l.dropWhile isWsChar = l := by
  cases l with
  | nil => rfl
  | cons a rest => simp [List.dropWhile, headNotWs] at h ⊢; simp [h]

theorem mem_dropWhile {c : Char} {l : List Char} (h : c ∈ l.dropWhile isWsChar) : c ∈ l := by
  induction l with
  | nil => exact h
  | cons a rest ih =>
    by_cases ha : isWsChar a
    · simp only [List.dropWhile, ha, if_true] at h
      exact List.mem_cons_of_mem _ (ih h)
    · have ha' : isWsChar a = false := by simpa using ha
      simpa [List.dropWhile, ha'] using h

theorem mem_dropTrailWs {c : Char} {l : List Char} (h : c ∈ dropTrailWs l) : c ∈ l := by
  induction l with
  | nil => exact h
  | cons a rest ih =>
    simp only [dropTrailWs] at h
    by_cases hr : (dropTrailWs rest).isEmpty
    · simp only [hr, if_true] at h
      by_cases ha : isWsChar a
      · simp [ha] at h
      · have ha' : isWsChar a = false := by simpa using ha
        simp [ha'] at h
        simp [h]
    · have hr' : (dropTrailWs rest).isEmpty = false := by simpa using hr
      simp only [hr', Bool.false_eq_true, if_false, List.mem_cons] at h
      rcases h with rfl | h
      · exact List.mem_cons_self _ _
      · exact List.mem_cons_of_mem _ (ih h)

theorem mem_dropTrailWs_of_mem {c : Char} (hc : isWsChar c = false) :
    ∀ {l : List Char}, c ∈ l → c ∈ dropTrailWs l := by
  intro l
  induction l with
  | nil => intro h; cases h
  | cons a rest ih =>
    intro h
    simp only [dropTrailWs]
    rcases List.mem_cons.mp h with rfl | h
    · by_cases hr : (dropTrailWs rest).isEmpty <;> simp [hr, hc]
    · have hmem : c ∈ dropTrailWs rest := ih h
      have hne : (dropTrailWs rest).isEmpty = false := by
        cases hdr : dropTrailWs rest
        · rw [hdr] at hmem; cases hmem
        · rfl
      simp only [hne, Bool.false_eq_true, if_false, List.mem_cons]
      exact Or.inr hmem

theorem head?_dropTrailWs {l : List Char} :
    dropTrailWs l = [] ∨ (dropTrailWs l).head? = l.head? := by
  cases l with
  | nil => exact Or.inl rfl
  | cons a rest =>
    simp only [dropTrailWs]
    by_cases hr : (dropTrailWs rest).isEmpty
    · by_cases ha : isWsChar a
      · simp [hr, ha]
      · have ha' : isWsChar a = false := by simpa using ha
        simp [hr, ha']
    · have hr' : (dropTrailWs rest).isEmpty = false := by simpa using hr
      simp [hr']

theorem headNotWs_dropTrailWs {l : List Char} (h : headNotWs l) :
    headNotWs (dropTrailWs l) := by
  rcases head?_dropTrailWs (l := l) with he | hh
  · rw [he]; trivial
  · cases l with
    | nil => simpa [dropTrailWs] using trivial
    | cons a rest =>
      cases hd : dropTrailWs (a :: rest) with
      | nil => trivial
      | cons b t =>
        rw [hd] at hh
        simp only [List.head?] at hh
        have : b = a := by injection hh
        subst this
        exact h

theorem noTwoWs_dropTrailWs {l : List Char} (h : noTwoWs l = true) :
    noTwoWs (dropTrailWs l) = true := by
  induction l with
  | nil => rfl
  | cons a rest ih =>
    simp only [dropTrailWs]
    by_cases hr : (dropTrailWs rest).isEmpty
    · by_cases ha : isWsChar a <;> simp [hr, ha, noTwoWs]
    · have hr' : (dropTrailWs rest).isEmpty = false := by simpa using hr
      simp only [hr', Bool.false_eq_true, if_false]
      have htail := ih (noTwoWs_tail h)
      cases hd : dropTrailWs rest with
      | nil => simp [hd] at hr'
      | cons b t =>
        rw [hd] at htail
        simp only [noTwoWs, Bool.and_eq_true]
        refine ⟨?_, htail⟩
        cases rest with
        | nil => simp [dropTrailWs] at hd
        | cons b' t' =>
          rcases head?_dropTrailWs (l := b' :: t') with he | hh
          · rw [he] at hd; cases hd
          · rw [hd] at hh
            simp only [List.head?] at hh
            have hb : b = b' := by injection hh
            subst hb
            simp only [noTwoWs, Bool.and_eq_true, Bool.not_eq_true', Bool.and_eq_false_iff] at h
            rcases h.1 with hx | hx <;> simp [hx]

theorem lastNotWs_dropTrailWs (l : List Char) : lastNotWs (dropTrailWs l) := by
  induction l with
  | nil => trivial
  | cons a rest ih =>
    simp only [dropTrailWs]
    by_cases hr : (dropTrailWs rest).isEmpty
    · by_cases ha : isWsChar a
      · simp [hr, ha, lastNotWs]
      · have ha' : isWsChar a = false := by simpa using ha
        simp [hr, ha', lastNotWs, ha']
    · have hr' : (dropTrailWs rest).isEmpty = false := by simpa using hr
      simp only [hr', Bool.false_eq_true, if_false]
      cases hd : dropTrailWs rest with
      | nil => simp [hd] at hr'
      | cons b t =>
        rw [hd] at ih
        simpa [lastNotWs, List.getLast?] using ih

theorem dropTrailWs_eq_self {l : List Char} (h : lastNotWs l) : dropTrailWs l = l := by
  induction l with
  | nil => rfl
  | cons a rest ih =>
    cases rest with
    | nil =>
      have : isWsChar a = false := by simpa [lastNotWs, List.getLast?] using h
      simp [dropTrailWs, this]
    | cons b t =>
      have htail : lastNotWs (b :: t) := by
        simpa [lastNotWs, List.getLast?] using h
      have hrec := ih htail
      rw [dropTrailWs, hrec]
      simp

theorem stripWsL_wsNormal {l : List Char} (h1 : noTwoWs l = true)
    (h2 : ∀ c ∈ l, isWsChar c = true → c = ' ') : wsNormal (stripWsL l) := by
  refine ⟨noTwoWs_dropTrailWs (noTwoWs_dropWhile h1),
    headNotWs_dropTrailWs (headNotWs_dropWhile l), lastNotWs_dropTrailWs _, ?_⟩
  intro c hc hws
  exact h2 c (mem_dropWhile (mem_dropTrailWs hc)) hws

theorem stripWsL_eq_self {l : List Char} (hh : headNotWs l) (hl : lastNotWs l) :
    stripWsL l = l := by
  rw [stripWsL, dropWhile_eq_self_of_headNotWs hh, dropTrailWs_eq_self hl]

theorem cleanL_wsNormal (l : List Char) : wsNormal (cleanL l) := by
  refine stripWsL_wsNormal (collapse_shape l false).1 ?_
  intro c hc hws
  exact ws_mem_collapse hc hws

theorem cleanL_eq_self {l : List Char} (h : wsNormal l) : cleanL l = l := by
  rcases h with ⟨h1, h2, h3, h4⟩
  rw [cleanL, collapseWs, collapse_fix h4 h1 false (by simp), stripWsL_eq_self h2 h3]

theorem mem_cleanL {c : Char} {l : List Char} (h : c ∈ cleanL l) : c = ' ' ∨ c ∈ l := by
  have := mem_dropWhile (mem_dropTrailWs h)
  rcases mem_replaceRunsAux this with h' | h'
  · exact Or.inl h'
  · exact Or.inr h'.1

theorem mem_cleanL_of_mem {c : Char} (hc : isWsChar c = false) {l : List Char}
    (h : c ∈ l) : c ∈ cleanL l :=
  mem_dropTrailWs_of_mem hc (mem_dropWhile_of_mem hc (mem_replaceRunsAux_of_mem hc h))

/-! ### Character-class facts -/

theorem lowerChar_toNat {c : Char} (h : 65 ≤ c.toNat ∧ c.toNat ≤ 90) :
    (lowerChar c).toNat = c.toNat + 32 := by
  have hv : Nat.isValidChar (c.toNat + 32) := Or.inl (by omega)
  rw [lowerChar, if_pos h, Char.ofNat, dif_pos hv]
  rfl

theorem lowerChar_of_not_upper {c : Char} (h : ¬(65 ≤ c.toNat ∧ c.toNat ≤ 90)) :
    lowerChar c = c := by
  rw [lowerChar, if_neg h]

theorem lowerChar_idem (c : Char) : lowerChar (lowerChar c) = lowerChar c := by
  by_cases h : 65 ≤ c.toNat ∧ c.toNat ≤ 90
  · have h2 := lowerChar_toNat h
    exact lowerChar_of_not_upper (by omega)
  · rw [lowerChar_of_not_upper h, lowerChar_of_not_upper h]

theorem ws_toNat_le {c : Char} (h : isWsChar c = true) : c.toNat ≤ 32 := by
  simp only [isWsChar, Bool.or_eq_true, decide_eq_true_eq] at h
  omega

theorem kept_heading_not_upper {c : Char} (h : isKeptHeadingChar c = true) :
    ¬(65 ≤ c.toNat ∧ c.toNat ≤ 90) := by
  simp only [isKeptHeadingChar, Bool.or_eq_true, Bool.and_eq_true, decide_eq_true_eq] at h
  rcases h with ((((((((⟨h1, h2⟩ | ⟨h1, h2⟩) | hws) | rfl) | rfl) | rfl) | rfl) | rfl) | rfl)
  · omega
  · omega
  · have := ws_toNat_le hws; omega
  all_goals decide

theorem kept_norm_not_upper {c : Char} (h : isKeptNormChar c = true) :
    ¬(65 ≤ c.toNat ∧ c.toNat ≤ 90) := by
  simp only [isKeptNormChar, Bool.or_eq_true, Bool.and_eq_true, decide_eq_true_eq] at h
  rcases h with (⟨h1, h2⟩ | ⟨h1, h2⟩) | hws
  · omega
  · omega
  · have := ws_toNat_le hws; omega

theorem kept_heading_not_dash {c : Char} (h : isKeptHeadingChar c = true) :
    isDashChar c = false := by
  cases hd : isDashChar c
  · rfl
  · exfalso
    simp only [isDashChar, Bool.or_eq_true, decide_eq_true_eq] at hd
    rcases hd with ((((rfl | rfl) | rfl) | rfl) | rfl) | rfl <;> revert h <;> decide

theorem lowerL_eq_self {l : List Char} (h : ∀ c ∈ l, lowerChar c = c) : lowerL l = l := by
  induction l with
  | nil => rfl
  | cons a rest ih =>
    simp only [lowerL, List.map_cons]
    rw [h a (List.mem_cons_self _ _)]
    have := ih (fun c hc => h c (List.mem_cons_of_mem _ hc))
    simpa [lowerL] using this

theorem space_kept_heading : isKeptHeadingChar ' ' = true := by decide

/-! ### Idempotence of `parser._norm_heading` (C7) -/

theorem normHeadingL_chars {l : List Char} :
    ∀ c ∈ normHeadingL l, isKeptHeadingChar c = true := by
  intro c hc
  rcases mem_cleanL hc with rfl | hmem
  · exact space_kept_heading
  · exact (List.mem_filter.mp hmem).2

theorem normHeadingL_idem (l : List Char) : normHeadingL (normHeadingL l) = normHeadingL l := by
  have hkept := normHeadingL_chars (l := l)
  have hnorm : wsNormal (normHeadingL l) := cleanL_wsNormal _
  have h1 : cleanL (normHeadingL l) = normHeadingL l := cleanL_eq_self hnorm
  have h2 : lowerL (normHeadingL l) = normHeadingL l :=
    lowerL_eq_self fun c hc => lowerChar_of_not_upper (kept_heading_not_upper (hkept c hc))
  have h3 : replaceRunsAux isDashChar false (normHeadingL l) = normHeadingL l :=
    replaceRunsAux_eq_self (fun c hc => kept_heading_not_dash (hkept c hc)) false
  have h4 : List.filter isKeptHeadingChar (normHeadingL l) = normHeadingL l :=
    List.filter_eq_self.mpr hkept
  calc normHeadingL (normHeadingL l)
      = cleanL (List.filter isKeptHeadingChar (replaceRunsAux isDashChar false
          (lowerL (cleanL (normHeadingL l))))) := rfl
    _ = normHeadingL l := by rw [h1, h2, h3, h4, h1]

theorem normHeading_idem (s : String) : normHeading (normHeading s) = normHeading s := by
  simp only [normHeading, normHeadingL_idem]

/-! ### Idempotence of `analyzers/gaps._normalize` (C7) -/

theorem splitWsAux_words {l acc : List Char} (hacc : ∀ c ∈ acc, isWsChar c = false) :
    ∀ w ∈ splitWsAux l acc, w ≠ [] ∧ ∀ c ∈ w, isWsChar c = false := by
  induction l generalizing acc with
  | nil =>
    intro w hw
    simp only [splitWsAux] at hw
    by_cases he : acc.isEmpty
    · simp [he] at hw
    · have he' : acc.isEmpty = false := by simpa using he
      simp only [he', Bool.false_eq_true, if_false, List.mem_singleton] at hw
      subst hw
      refine ⟨by simpa [List.isEmpty_iff] using he, ?_⟩
      intro c hc
      exact hacc c (List.mem_reverse.mp hc)
  | cons a rest ih =>
    intro w hw
    simp only [splitWsAux] at hw
    by_cases ha : isWsChar a
    · simp only [ha, if_true] at hw
      by_cases he : acc.isEmpty
      · simp only [he, if_true] at hw
        exact ih (by simp) w hw
      · have he' : acc.isEmpty = false := by simpa using he
        simp only [he', Bool.false_eq_true, if_false, List.mem_cons] at hw
        rcases hw with rfl | hw
        · refine ⟨by simpa [List.isEmpty_iff] using he, ?_⟩
          intro c hc
          exact hacc c (List.mem_reverse.mp hc)
        · exact ih (by simp) w hw
    · have ha' : isWsChar a = false := by simpa using ha
      simp only [ha', Bool.false_eq_true, if_false] at hw
      refine ih ?_ w hw
      intro c hc
      rcases List.mem_cons.mp hc with rfl | hc
      · exact ha'
      · exact hacc c hc

theorem mem_splitWsAux_chars {l acc : List Char} {w : List Char} (hw : w ∈ splitWsAux l acc) :
    ∀ c ∈ w, c ∈ l ∨ c ∈ acc := by
  induction l generalizing acc with
  | nil =>
    simp only [splitWsAux] at hw
    by_cases he : acc.isEmpty
    · simp [he] at hw
    · have he' : acc.isEmpty = false := by simpa using he
      simp only [he', Bool.false_eq_true, if_false, List.mem_singleton] at hw
      subst hw
      intro c hc
      exact Or.inr (List.mem_reverse.mp hc)
  | cons a rest ih =>
    simp only [splitWsAux] at hw
    intro c hc
    by_cases ha : isWsChar a
    · simp only [ha, if_true] at hw
      by_cases he : acc.isEmpty
      · simp only [he, if_true] at hw
        rcases ih hw c hc with h | h
        · exact Or.inl (List.mem_cons_of_mem _ h)
        · simp at h
      · have he' : acc.isEmpty = false := by simpa using he
        simp only [he', Bool.false_eq_true, if_false, List.mem_cons] at hw
        rcases hw with rfl | hw
        · exact Or.inr (List.mem_reverse.mp hc)
        · rcases ih hw c hc with h | h
          · exact Or.inl (List.mem_cons_of_mem _ h)
          · simp at h
    · have ha' : isWsChar a = false := by simpa using ha
      simp only [ha', Bool.false_eq_true, if_false] at hw
      rcases ih hw c hc with h | h
      · exact Or.inl (List.mem_cons_of_mem _ h)
      · rcases List.mem_cons.mp h with rfl | h
        · exact Or.inl (List.mem_cons_self _ _)
        · exact Or.inr h

theorem splitWsAux_append {w : List Char} (hw : ∀ c ∈ w, isWsChar c = false) :
    ∀ (acc rest : List Char), splitWsAux (w ++ rest) acc = splitWsAux rest (w.reverse ++ acc) := by
  induction w with
  | nil => intro acc rest; simp
  | cons a w' ih =>
    intro acc rest
    have ha : isWsChar a = false := hw a (List.mem_cons_self _ _)
    simp only [List.cons_append, splitWsAux, ha, Bool.false_eq_true, if_false, List.append_eq]
    rw [ih (fun c hc => hw c (List.mem_cons_of_mem _ hc))]
    simp

theorem splitWs_joinSp {ws : List (List Char)}
    (h : ∀ w ∈ ws, w ≠ [] ∧ ∀ c ∈ w, isWsChar c = false) :
    splitWsL (joinSp ws) = ws := by
  induction ws with
  | nil => rfl
  | cons w ws' ih =>
    rcases h w (List.mem_cons_self _ _) with ⟨hne, hch⟩
    have hrev : w.reverse.isEmpty = false := by
      simpa [List.isEmpty_iff] using hne
    cases ws' with
    | nil =>
      show splitWsAux (joinSp [w]) [] = [w]
      have : joinSp [w] = w ++ [] := by simp [joinSp]
      rw [this, splitWsAux_append hch]
      simp [splitWsAux, hrev]
    | cons w2 ws'' =>
      show splitWsAux (w ++ ' ' :: joinSp (w2 :: ws'')) [] = w :: w2 :: ws''
      rw [splitWsAux_append hch]
      have hsp : isWsChar ' ' = true := by decide
      simp only [splitWsAux, hsp, if_true, List.append_nil, hrev, Bool.false_eq_true, if_false,
        List.reverse_reverse]
      rw [show splitWsAux (joinSp (w2 :: ws'')) [] = splitWsL (joinSp (w2 :: ws'')) from rfl,
        ih (fun w' hw' => h w' (List.mem_cons_of_mem _ hw'))]

theorem mem_joinSp {c : Char} : ∀ {ws : List (List Char)}, c ∈ joinSp ws →
    c = ' ' ∨ ∃ w ∈ ws, c ∈ w := by
  intro ws
  induction ws with
  | nil => intro h; cases h
  | cons w ws' ih =>
    intro h
    cases ws' with
    | nil =>
      exact Or.inr ⟨w, List.mem_cons_self _ _, by simpa [joinSp] using h⟩
    | cons w2 ws'' =>
      have h' : c ∈ w ∨ c = ' ' ∨ c ∈ joinSp (w2 :: ws'') := by simpa [joinSp] using h
      rcases h' with h' | rfl | h''
      · exact Or.inr ⟨w, List.mem_cons_self _ _, h'⟩
      · exact Or.inl rfl
      · rcases ih h'' with h3 | ⟨w', hw', hc⟩
        · exact Or.inl h3
        · exact Or.inr ⟨w', List.mem_cons_of_mem _ hw', hc⟩

theorem lowerChar_mem_lowerL {c : Char} {l : List Char} (h : c ∈ lowerL l) :
    lowerChar c = c := by
  rcases List.mem_map.mp h with ⟨d, _, rfl⟩
  exact lowerChar_idem d

theorem pyNormalizeL_lower_fix {l : List Char} : ∀ c ∈ pyNormalizeL l, lowerChar c = c := by
  intro c hc
  rcases mem_joinSp hc with rfl | ⟨w, hw, hcw⟩
  · decide
  · rcases mem_splitWsAux_chars hw c hcw with h | h
    · exact lowerChar_mem_lowerL h
    · simp at h

theorem pyNormalizeL_idem (l : List Char) : pyNormalizeL (pyNormalizeL l) = pyNormalizeL l := by
  have hwords : ∀ w ∈ splitWsL (lowerL l), w ≠ [] ∧ ∀ c ∈ w, isWsChar c = false :=
    splitWsAux_words (by simp)
  have h1 : lowerL (pyNormalizeL l) = pyNormalizeL l :=
    lowerL_eq_self pyNormalizeL_lower_fix
  show joinSp (splitWsL (lowerL (pyNormalizeL l))) = pyNormalizeL l
  rw [h1]
  show joinSp (splitWsL (joinSp (splitWsL (lowerL l)))) = pyNormalizeL l
  rw [splitWs_joinSp hwords]
  rfl

theorem pyNormalize_idem (s : String) : pyNormalize (pyNormalize s) = pyNormalize s := by
  simp only [pyNormalize, pyNormalizeL_idem]

/-! ### Claim C7: idempotence of the normalization functions -/

/-- C7 (as stated, refuted for `gaps._norm`): `_norm` is not idempotent — removing
punctuation can leave double spaces that a second pass collapses.  At the concrete
input `"a ! b"`, `_norm` returns `"a  b"` while `_norm ∘ _norm` returns `"a b"`. -/
theorem pyNorm_not_idempotent_cex :
    pyNorm "a ! b" = "a  b" ∧ pyNorm (pyNorm "a ! b") = "a b" ∧
      pyNorm (pyNorm "a ! b") ≠ pyNorm "a ! b" := by
  refine ⟨by decide, by decide, by decide⟩

/-- C7 (amended): `parser._norm_heading` and `analyzers/gaps._normalize` are
idempotent for every string; `gaps._norm` is not (see the counterexample). -/
theorem normalization_idempotent (s : String) :
    normHeading (normHeading s) = normHeading s ∧
      pyNormalize (pyNormalize s) = pyNormalize s :=
  ⟨normHeading_idem s, pyNormalize_idem s⟩

/-! ### Claim C8: normalizer character policy -/

/-- The characters the spec says survive normalization: lowercase alphanumerics
and `?`, `&`, `(`, `)`, `:`. -/
def isPreservedChar (c : Char) : Bool :=
  (97 ≤ c.toNat && c.toNat ≤ 122) || (48 ≤ c.toNat && c.toNat ≤ 57) ||
    c = '?' || c = '&' || c = '(' || c = ')' || c = ':'

theorem preserved_not_ws {c : Char} (h : isPreservedChar c = true) : isWsChar c = false := by
  cases hw : isWsChar c
  · rfl
  · exfalso
    have := ws_toNat_le hw
    simp only [isPreservedChar, Bool.or_eq_true, Bool.and_eq_true, decide_eq_true_eq] at h
    rcases h with ((((((⟨h1, h2⟩ | ⟨h1, h2⟩) | rfl) | rfl) | rfl) | rfl) | rfl)
    · omega
    · omega
    all_goals simp [isWsChar] at hw

theorem preserved_not_dash {c : Char} (h : isPreservedChar c = true) : isDashChar c = false := by
  cases hd : isDashChar c
  · rfl
  · exfalso
    simp only [isDashChar, Bool.or_eq_true, decide_eq_true_eq] at hd
    rcases hd with ((((rfl | rfl) | rfl) | rfl) | rfl) | rfl <;> revert h <;> decide

theorem preserved_kept {c : Char} (h : isPreservedChar c = true) :
    isKeptHeadingChar c = true := by
  simp only [isPreservedChar, Bool.or_eq_true, Bool.and_eq_true, decide_eq_true_eq] at h
  simp only [isKeptHeadingChar, Bool.or_eq_true, Bool.and_eq_true, decide_eq_true_eq]
  rcases h with ((((((⟨h1, h2⟩ | ⟨h1, h2⟩) | rfl) | rfl) | rfl) | rfl) | rfl) <;> tauto

theorem preserved_not_upper {c : Char} (h : isPreservedChar c = true) :
    ¬(65 ≤ c.toNat ∧ c.toNat ≤ 90) := by
  simp only [isPreservedChar, Bool.or_eq_true, Bool.and_eq_true, decide_eq_true_eq] at h
  rcases h with ((((((⟨h1, h2⟩ | ⟨h1, h2⟩) | rfl) | rfl) | rfl) | rfl) | rfl)
  · omega
  · omega
  all_goals decide

/-- C8 (as stated, refuted for `gaps._norm`): `_norm` deletes `?` — the question
mark of `"Why us?"` is present in the input but absent from `_norm`'s output. -/
theorem pyNorm_drops_question_mark_cex :
    '?' ∈ "Why us?".data ∧ '?' ∉ (pyNorm "Why us?").data := by
  refine ⟨by decide, by decide⟩

/-- C8 (amended): `parser._norm_heading` removes dash/bullet separator characters
and preserves every lowercase alphanumeric, `?`, `&`, `(`, `)`, `:` occurring in
the input, while `gaps._norm` keeps only `a-z`, `0-9` and whitespace (so it drops
`?` as well as the other preserved punctuation). -/
theorem normalizer_char_policy (s : String) :
    (∀ c ∈ (normHeading s).data, isDashChar c = false) ∧
    (∀ c, isPreservedChar c = true → c ∈ s.data → c ∈ (normHeading s).data) ∧
    (∀ c ∈ (pyNorm s).data, isKeptNormChar c = true) := by
  refine ⟨?_, ?_, ?_⟩
  · intro c hc
    exact kept_heading_not_dash (normHeadingL_chars c hc)
  · intro c hp hc
    have hws := preserved_not_ws hp
    have h1 : c ∈ cleanL s.data := mem_cleanL_of_mem hws hc
    have h2 : c ∈ lowerL (cleanL s.data) := by
      have := List.mem_map_of_mem lowerChar h1
      rwa [lowerChar_of_not_upper (preserved_not_upper hp)] at this
    have h3 : c ∈ replaceRunsAux isDashChar false (lowerL (cleanL s.data)) :=
      mem_replaceRunsAux_of_mem (preserved_not_dash hp) h2
    have h4 : c ∈ List.filter isKeptHeadingChar
        (replaceRunsAux isDashChar false (lowerL (cleanL s.data))) :=
      List.mem_filter.mpr ⟨h3, preserved_kept hp⟩
    exact mem_cleanL_of_mem hws h4
  · intro c hc
    have hc' : c ∈ pyNormL s.data := hc
    exact (List.mem_filter.mp hc').2

/-- Witness for C8: the question mark survives `_norm_heading` on a concrete input. -/
theorem normalizer_char_policy_witness :
    '?' ∈ (normHeading "Why us? — OK").data :=
  (normalizer_char_policy "Why us? — OK").2.1 '?' (by decide) (by decide)

/-! ### The `analyzers/analyzers/gaps.py` differ: `update_gaps` / `new_post_strategy` -/

/-- The fields of a parsed page dictionary that the update-mode differ reads
(`parsed.get("h2", [])`, `parsed.get("h3", [])`), together with the other
identity-relevant fields of the parser output (`section_texts`,
`faq_questions`) so that "identical structures" can be stated. -/
structure ParsedDoc where
  h2 : List String
  h3 : List String
  section_texts : List (String × String)
  faq_questions : List String
deriving DecidableEq

/-- One competitor entry `{"url": ..., "parsed": ...}`. -/
structure CompEntry where
  url : String
  parsed : ParsedDoc
deriving DecidableEq

/-- One output record of `update_gaps`. -/
structure GapEntry where
  missing_section : String
  sources : List String
deriving DecidableEq

/-- Python `set.add` on an insertion-ordered list model of a set. -/
def addToSet (url : String) (s : List String) : List String :=
  if url ∈ s then s else s ++ [url]

/-- `competitor_map.setdefault(key, set()).add(url)` on an insertion-ordered
association list model of a Python dict. -/
def setdefaultAdd (key url : String) : List (String × List String) → List (String × List String)
  | [] => [(key, [url])]
  | (k, v) :: rest =>
    if k = key then (k, addToSet url v) :: rest else (k, v) :: setdefaultAdd key url rest

/-- The inner loop of `update_gaps`/`new_post_strategy` over one competitor's
`h2 + h3` headings. -/
def foldHeadings (url : String) (m : List (String × List String)) (hs : List String) :
    List (String × List String) :=
  hs.foldl (fun m h =>
    let key := pyNormalize h
    if key = "" then m else setdefaultAdd key url m) m

/-- The `competitor_map` (= `section_map` in `new_post_strategy`) accumulated
over all competitors. -/
def competitorMap (cs : List CompEntry) : List (String × List String) :=
  cs.foldl (fun m c => foldHeadings c.url m (c.parsed.h2 ++ c.parsed.h3)) []

/-- `bayut_h`: the set of normalized Bayut `h2`/`h3` headings (list membership
models set membership). -/
def bayutH (b : ParsedDoc) : List String :=
  (b.h2 ++ b.h3).map pyNormalize

/-- Python `sorted(list(sources))`: ascending lexicographic (by code point)
stable sort of strings. -/
def lexLeChars : List Char → List Char → Bool
  | [], _ => true
  | _ :: _, [] => false
  | a :: as, b :: bs =>
    if a.toNat < b.toNat then true
    else if b.toNat < a.toNat then false
    else lexLeChars as bs

/-- Python string `<=`. -/
def strLe (a b : String) : Prop := lexLeChars a.data b.data = true

instance : DecidableRel strLe := fun a b => by
  unfold strLe; infer_instance

/-- Python `sorted` on strings. -/
def sortedStrings (l : List String) : List String := List.insertionSort strLe l

/-- `analyzers/analyzers/gaps.update_gaps`: every `competitor_map` entry whose
normalized heading is not among Bayut's normalized headings becomes one row. -/
def update_gaps (bayut_parsed : ParsedDoc) (competitors : List CompEntry) : List GapEntry :=
  (competitorMap competitors).filterMap fun kv =>
    if kv.1 ∈ bayutH bayut_parsed then none
    else some ⟨kv.1, sortedStrings kv.2⟩

/-- One recommendation row of `new_post_strategy`. -/
structure StrategyRec where
  recommended_section : String
  competitor_count : Nat
  sources : List String
deriving DecidableEq

/-- `sorted(section_map.items(), key=lambda x: len(x[1]), reverse=True)`:
Python's sort is stable, and `reverse=True` orders by descending key while
keeping ties in first-insertion order; `List.insertionSort` with this relation
is exactly that stable descending sort. -/
def rankRel (a b : String × List String) : Prop := b.2.length ≤ a.2.length

instance : DecidableRel rankRel := fun a b => by
  unfold rankRel; infer_instance

instance : IsTotal (String × List String) rankRel :=
  ⟨fun a b => (Nat.le_total b.2.length a.2.length).imp (fun h => h) fun h => h⟩

instance : IsTrans (String × List String) rankRel :=
  ⟨fun _ _ _ hab hbc => Nat.le_trans hbc hab⟩

/-- `analyzers/analyzers/gaps.new_post_strategy` (the `recommended_sections`
list; `bayut_title` is echoed unchanged alongside it). -/
def new_post_strategy (competitors : List CompEntry) : List StrategyRec :=
  (List.insertionSort rankRel (competitorMap competitors)).map fun kv =>
    ⟨kv.1, kv.2.length, sortedStrings kv.2⟩

example :
    update_gaps ⟨["Overview"], [], [], []⟩
      [⟨"u", ⟨["Overview", "Pricing"], ["FAQ list"], [], []⟩⟩] =
      [⟨"pricing", ["u"]⟩, ⟨"faq list", ["u"]⟩] := by decide

example :
    new_post_strategy [⟨"u", ⟨["Zebra", "Apple"], [], [], []⟩⟩,
        ⟨"v", ⟨["Apple"], [], [], []⟩⟩] =
      [⟨"apple", 2, ["u", "v"]⟩, ⟨"zebra", 1, ["u"]⟩] := by decide

/-! ### The `competitor_map` fold -/

theorem mem_keys_setdefaultAdd {k' key url : String} :
    ∀ {m : List (String × List String)},
      k' ∈ (setdefaultAdd key url m).map Prod.fst ↔ k' = key ∨ k' ∈ m.map Prod.fst := by
  intro m
  induction m with
  | nil => simp [setdefaultAdd]
  | cons kv rest ih =>
    obtain ⟨k, v⟩ := kv
    by_cases hk : k = key
    · subst hk
      rw [setdefaultAdd, if_pos rfl]
      simp only [List.map_cons, List.mem_cons]
      tauto
    · rw [setdefaultAdd, if_neg hk]
      simp only [List.map_cons, List.mem_cons, ih]
      tauto

theorem nodup_keys_setdefaultAdd {key url : String} :
    ∀ {m : List (String × List String)}, (m.map Prod.fst).Nodup →
      ((setdefaultAdd key url m).map Prod.fst).Nodup := by
  intro m
  induction m with
  | nil => intro _; simp [setdefaultAdd]
  | cons kv rest ih =>
    obtain ⟨k, v⟩ := kv
    intro h
    simp only [List.map_cons, List.nodup_cons] at h
    by_cases hk : k = key
    · subst hk
      rw [setdefaultAdd, if_pos rfl]
      simp only [List.map_cons, List.nodup_cons]
      exact h
    · rw [setdefaultAdd, if_neg hk]
      simp only [List.map_cons, List.nodup_cons]
      refine ⟨?_, ih h.2⟩
      rw [mem_keys_setdefaultAdd]
      rintro (rfl | hmem)
      · exact hk rfl
      · exact h.1 hmem

theorem foldHeadings_cons (url : String) (m : List (String × List String)) (h0 : String)
    (t : List String) :
    foldHeadings url m (h0 :: t) =
      foldHeadings url
        (if pyNormalize h0 = "" then m else setdefaultAdd (pyNormalize h0) url m) t := rfl

theorem mem_keys_foldHeadings {url k : String} :
    ∀ {hs : List String} {m : List (String × List String)},
      k ∈ (foldHeadings url m hs).map Prod.fst ↔
        k ∈ m.map Prod.fst ∨ (k ≠ "" ∧ ∃ h ∈ hs, pyNormalize h = k) := by
  intro hs
  induction hs with
  | nil => intro m; simp [foldHeadings]
  | cons h0 t ih =>
    intro m
    rw [foldHeadings_cons]
    by_cases hn : pyNormalize h0 = ""
    · rw [if_pos hn, ih]
      constructor
      · rintro (hm | ht)
        · exact Or.inl hm
        · exact Or.inr ⟨ht.1, ht.2.imp fun h hh => ⟨List.mem_cons_of_mem _ hh.1, hh.2⟩⟩
      · rintro (hm | ⟨hne, h, hmem, hk⟩)
        · exact Or.inl hm
        · rcases List.mem_cons.mp hmem with rfl | hmem
          · exact absurd (hk.symm.trans hn) hne
          · exact Or.inr ⟨hne, h, hmem, hk⟩
    · rw [if_neg hn, ih]
      rw [mem_keys_setdefaultAdd]
      constructor
      · rintro ((rfl | hm) | ht)
        · exact Or.inr ⟨hn, h0, List.mem_cons_self _ _, rfl⟩
        · exact Or.inl hm
        · exact Or.inr ⟨ht.1, ht.2.imp fun h hh => ⟨List.mem_cons_of_mem _ hh.1, hh.2⟩⟩
      · rintro (hm | ⟨hne, h, hmem, hk⟩)
        · exact Or.inl (Or.inr hm)
        · rcases List.mem_cons.mp hmem with rfl | hmem
          · exact Or.inl (Or.inl hk.symm)
          · exact Or.inr ⟨hne, h, hmem, hk⟩

theorem nodup_keys_foldHeadings {url : String} :
    ∀ {hs : List String} {m : List (String × List String)}, (m.map Prod.fst).Nodup →
      ((foldHeadings url m hs).map Prod.fst).Nodup := by
  intro hs
  induction hs with
  | nil => intro m h; exact h
  | cons h0 t ih =>
    intro m h
    rw [foldHeadings_cons]
    by_cases hn : pyNormalize h0 = ""
    · rw [if_pos hn]; exact ih h
    · rw [if_neg hn]; exact ih (nodup_keys_setdefaultAdd h)

theorem mem_keys_competitorMap {k : String} :
    ∀ {cs : List CompEntry} {m : List (String × List String)},
      k ∈ (cs.foldl (fun m c => foldHeadings c.url m (c.parsed.h2 ++ c.parsed.h3)) m).map
          Prod.fst ↔
        k ∈ m.map Prod.fst ∨
          (k ≠ "" ∧ ∃ c ∈ cs, ∃ h ∈ c.parsed.h2 ++ c.parsed.h3, pyNormalize h = k) := by
  intro cs
  induction cs with
  | nil => intro m; simp
  | cons c0 t ih =>
    intro m
    rw [List.foldl_cons, ih, mem_keys_foldHeadings]
    constructor
    · rintro ((hm | hc) | ht)
      · exact Or.inl hm
      · exact Or.inr ⟨hc.1, c0, List.mem_cons_self _ _, hc.2⟩
      · exact Or.inr ⟨ht.1, ht.2.imp fun c hc => ⟨List.mem_cons_of_mem _ hc.1, hc.2⟩⟩
    · rintro (hm | ⟨hne, c, hmem, hh⟩)
      · exact Or.inl (Or.inl hm)
      · rcases List.mem_cons.mp hmem with rfl | hmem
        · exact Or.inl (Or.inr ⟨hne, hh⟩)
        · exact Or.inr ⟨hne, c, hmem, hh⟩

theorem nodup_keys_competitorMap (cs : List CompEntry) :
    ((competitorMap cs).map Prod.fst).Nodup := by
  have : ∀ (cs' : List CompEntry) (m : List (String × List String)), (m.map Prod.fst).Nodup →
      ((cs'.foldl (fun m c => foldHeadings c.url m (c.parsed.h2 ++ c.parsed.h3)) m).map
        Prod.fst).Nodup := by
    intro cs'
    induction cs' with
    | nil => intro m h; exact h
    | cons c0 t ih => intro m h; exact ih _ (nodup_keys_foldHeadings h)
  exact this cs [] (by simp)

theorem update_gaps_map_missing (b : ParsedDoc) :
    ∀ m : List (String × List String),
      ((m.filterMap fun kv => if kv.1 ∈ bayutH b then none
          else some (GapEntry.mk kv.1 (sortedStrings kv.2))).map (·.missing_section)) =
        (m.map Prod.fst).filter fun k => !(decide (k ∈ bayutH b)) := by
  intro m
  induction m with
  | nil => rfl
  | cons kv rest ih =>
    by_cases hk : kv.1 ∈ bayutH b
    · simpa [List.filterMap_cons, hk, List.filter_cons] using ih
    · simpa [List.filterMap_cons, hk, List.filter_cons] using ih

/-! ### Claim C1: no collapsing of missing subtrees in `update_gaps` -/

/-- C1 as stated is refuted: the primary document is empty and the competitor has
the parent heading "Comparison" (h2) with the missing descendants
"Comparison: Area A"/"Comparison: Area B" (h3).  `update_gaps` emits three rows —
one per missing heading — instead of a single row for the topmost missing
ancestor, and its rows carry no evidence field that could list descendants. -/
theorem update_gaps_no_collapse_cex :
    update_gaps ⟨[], [], [], []⟩
        [⟨"u", ⟨["Comparison"], ["Comparison: Area A", "Comparison: Area B"], [], []⟩⟩] =
      [⟨"comparison", ["u"]⟩, ⟨"comparison: area a", ["u"]⟩,
        ⟨"comparison: area b", ["u"]⟩] ∧
    (update_gaps ⟨[], [], [], []⟩
        [⟨"u", ⟨["Comparison"], ["Comparison: Area A", "Comparison: Area B"], [], []⟩⟩]).length
      ≠ 1 := by
  refine ⟨by decide, by decide⟩

/-- C1 (amended): `update_gaps` performs no subtree collapsing — its output has
exactly one row per distinct non-empty normalized competitor heading that is
absent from the primary's normalized headings, descendants included, and rows
carry no evidence field. -/
theorem update_gaps_row_per_missing_heading (b : ParsedDoc) (cs : List CompEntry) :
    ((update_gaps b cs).map (·.missing_section)).Nodup ∧
    ∀ k, k ∈ (update_gaps b cs).map (·.missing_section) ↔
      (k ≠ "" ∧ k ∉ bayutH b ∧
        ∃ c ∈ cs, ∃ h ∈ c.parsed.h2 ++ c.parsed.h3, pyNormalize h = k) := by
  have hmap := update_gaps_map_missing b (competitorMap cs)
  constructor
  · rw [show (update_gaps b cs).map (·.missing_section) =
        ((competitorMap cs).map Prod.fst).filter (fun k => !(decide (k ∈ bayutH b))) from hmap]
    exact (nodup_keys_competitorMap cs).filter _
  · intro k
    rw [show (update_gaps b cs).map (·.missing_section) =
        ((competitorMap cs).map Prod.fst).filter (fun k => !(decide (k ∈ bayutH b))) from hmap]
    rw [List.mem_filter]
    have hk : k ∈ (competitorMap cs).map Prod.fst ↔
        k ≠ "" ∧ ∃ c ∈ cs, ∃ h ∈ c.parsed.h2 ++ c.parsed.h3, pyNormalize h = k := by
      have := @mem_keys_competitorMap k cs []
      simpa using this
    rw [hk]
    simp only [Bool.not_eq_true', decide_eq_false_iff_not]
    tauto

/-! ### Claim C2: no-gap symmetry -/

/-- C2 (amended, `update_gaps` part): diffing a parsed structure against itself
as the sole competitor yields no gap rows. -/
theorem update_gaps_identical_empty (p : ParsedDoc) (u : String) :
    update_gaps p [⟨u, p⟩] = [] := by
  rw [update_gaps, List.filterMap_eq_nil_iff]
  intro kv hkv
  have hkey : kv.1 ∈ (competitorMap [⟨u, p⟩]).map Prod.fst := List.mem_map_of_mem _ hkv
  have hchar := (@mem_keys_competitorMap kv.1 [⟨u, p⟩] []).mp
    (by simpa using hkey)
  have hmem : kv.1 ∈ bayutH p := by
    rcases hchar with hfalse | ⟨_, c, hc, h, hh, hnorm⟩
    · simp at hfalse
    · rcases List.mem_singleton.mp hc with rfl
      exact hnorm ▸ List.mem_map_of_mem pyNormalize hh
  rw [if_pos hmem]

/-! ### Claim C6: strategy-ranker ordering -/

theorem filter_orderedInsert_rank (n : Nat) (a : String × List String) :
    ∀ {l : List (String × List String)}, l.Sorted rankRel →
      (List.orderedInsert rankRel a l).filter (fun x => x.2.length == n) =
        (a :: l).filter (fun x => x.2.length == n) := by
  intro l
  induction l with
  | nil => simp [List.orderedInsert]
  | cons b t ih =>
    intro hs
    by_cases hr : rankRel a b
    · rw [List.orderedInsert, if_pos hr]
    · rw [List.orderedInsert, if_neg hr]
      have hst : t.Sorted rankRel := (List.sorted_cons.mp hs).2
      have hlt : a.2.length < b.2.length := by
        simp only [rankRel, not_le] at hr
        exact hr
      have hrec := ih hst
      by_cases hpa : a.2.length = n
      · have hpb : ¬ b.2.length = n := by omega
        simp [List.filter_cons, hpa, hpb, hrec]
      · simp [List.filter_cons, hpa, hrec]

theorem filter_insertionSort_rank (n : Nat) :
    ∀ l : List (String × List String),
      (List.insertionSort rankRel l).filter (fun x => x.2.length == n) =
        l.filter (fun x => x.2.length == n) := by
  intro l
  induction l with
  | nil => rfl
  | cons a t ih =>
    rw [List.insertionSort,
      filter_orderedInsert_rank n a (List.sorted_insertionSort rankRel t)]
    by_cases hpa : a.2.length = n
    · rw [List.filter_cons_of_pos (by simp [hpa]), ih, List.filter_cons_of_pos (by simp [hpa])]
    · rw [List.filter_cons_of_neg (by simp [hpa]), ih, List.filter_cons_of_neg (by simp [hpa])]

/-- C6 as stated is refuted: one competitor with headings "Zebra" then "Apple"
gives both sections a competitor count of 1, and `new_post_strategy` keeps them
in first-seen order — "zebra" before "apple" — even though the ascending
normalized-title order would put "apple" first. -/
theorem new_post_strategy_tie_order_cex :
    new_post_strategy [⟨"u", ⟨["Zebra", "Apple"], [], [], []⟩⟩] =
      [⟨"zebra", 1, ["u"]⟩, ⟨"apple", 1, ["u"]⟩] ∧
    strLe "apple" "zebra" ∧ ("apple" : String) ≠ "zebra" := by
  refine ⟨by decide, by decide, by decide⟩

/-- C6 (amended): the ranker's output is ordered by descending count of distinct
competitors covering each section, and entries with equal competitor counts keep
the first-seen insertion order of the aggregated section map (Python's stable
sort), not ascending title order. -/
theorem new_post_strategy_ranking (cs : List CompEntry) :
    ((new_post_strategy cs).map (·.competitor_count)).Sorted (· ≥ ·) ∧
    ∀ n : Nat, (new_post_strategy cs).filter (fun r => r.competitor_count == n) =
      ((competitorMap cs).map fun kv =>
        StrategyRec.mk kv.1 kv.2.length (sortedStrings kv.2)).filter
          (fun r => r.competitor_count == n) := by
  constructor
  · have hs : (List.insertionSort rankRel (competitorMap cs)).Sorted rankRel :=
      List.sorted_insertionSort rankRel _
    have hmap : ((List.insertionSort rankRel (competitorMap cs)).map
        (fun kv => kv.2.length)).Sorted (· ≥ ·) :=
      List.Pairwise.map _ (fun _ _ hab => hab) hs
    simpa [new_post_strategy, List.map_map, Function.comp] using hmap
  · intro n
    rw [new_post_strategy, List.filter_map, List.filter_map]
    rw [show (fun r : StrategyRec => r.competitor_count == n) ∘
        (fun kv : String × List String => StrategyRec.mk kv.1 kv.2.length (sortedStrings kv.2)) =
        fun x : String × List String => x.2.length == n from rfl]
    rw [filter_insertionSort_rank n (competitorMap cs)]

/-! ### `analyzers/gaps.py`: the rule-based per-competitor differ

`_parse_page` (network fetch + BeautifulSoup) is an external collaborator;
`analyze_article` is modelled from the point where each page has been parsed
into its `{url, source, headings, text, faq_questions}` dictionary. -/

/-- Python regex `\w` (ASCII model), for `\b` word boundaries. -/
def isWordChar (c : Char) : Bool :=
  (97 ≤ c.toNat && c.toNat ≤ 122) || (65 ≤ c.toNat && c.toNat ≤ 90) ||
    (48 ≤ c.toNat && c.toNat ≤ 57) || c = '_'

/-- Does `pat` occur at the start of the list? -/
def startsWith : List Char → List Char → Bool
  | [], _ => true
  | _ :: _, [] => false
  | p :: ps, c :: cs => p = c && startsWith ps cs

/-- Substring containment: `re.search` of a literal pattern / Python `in`. -/
def containsSub (pat : List Char) : List Char → Bool
  | [] => startsWith pat []
  | c :: rest => startsWith pat (c :: rest) || containsSub pat rest

/-- A regex `\b` boundary between two adjacent positions (string edges count as
non-word). -/
def wordBoundary (a b : Option Char) : Bool :=
  (match a with | none => false | some c => isWordChar c) !=
    (match b with | none => false | some c => isWordChar c)

/-- `len(re.findall(r"\b" + re.escape(k) + r"\b", t))`: count the non-overlapping
word-bounded occurrences of the literal `pat`, scanning left to right.  `fuel`
is an upper bound on the number of scanning steps (the text length suffices, as
every step consumes at least one character for the non-empty patterns used). -/
def countWordFuel (pat : List Char) : Nat → Option Char → List Char → Nat
  | 0, _, _ => 0
  | _ + 1, _, [] => 0
  | fuel + 1, prev, c :: rest =>
    if startsWith pat (c :: rest) && wordBoundary prev (some c) &&
        wordBoundary (some (pat.getLastD c)) ((c :: rest).drop pat.length).head? then
      1 + countWordFuel pat fuel (some (pat.getLastD c)) ((c :: rest).drop pat.length)
    else countWordFuel pat fuel (some c) rest

/-- `re.search(r"\b" + pat + r"\b", text)` as a count ≥ 1. -/
def countWord (pat text : List Char) : Nat :=
  countWordFuel pat (text.length + 1) none text

/-- `re.search` of a word-bounded literal. -/
def searchWordB (pat text : List Char) : Bool := countWord pat text != 0

/-- Scan for pattern `b` with no newline before it (the tail of an `a .* b`
regex: `.` does not match a newline). -/
def foundBeforeNl (b : List Char) : List Char → Bool
  | [] => startsWith b []
  | c :: rest => startsWith b (c :: rest) || (c != '\n' && foundBeforeNl b rest)

/-- `re.search` of an `a .* b` pattern (both parts literal). -/
def searchGap (a b : List Char) : List Char → Bool
  | [] => false
  | c :: rest =>
    (startsWith a (c :: rest) && foundBeforeNl b ((c :: rest).drop a.length)) ||
      searchGap a b rest

/-- `_parse_page`'s output dictionary (minus the derived `source` label). -/
structure PageData where
  url : String
  headings : List String
  text : String
  faq_questions : List String
deriving DecidableEq

/-- One row of `analyze_article`'s output: `Missing header` /
`What the header contains` / `Source`. -/
structure GapRow where
  missingHeader : String
  whatContains : String
  source : String
deriving DecidableEq

/-- `urlparse(url).netloc`, modelled for `scheme://host/...`-shaped URLs: the
part after `"://"` up to the first `/`, `?` or `#` (empty when there is no
scheme separator, as `urlparse` yields for scheme-less strings). -/
def afterScheme : List Char → Option (List Char)
  | [] => none
  | c :: rest =>
    if startsWith "://".data (c :: rest) then some ((c :: rest).drop 3)
    else afterScheme rest

def netlocOf (u : List Char) : List Char :=
  match afterScheme u with
  | none => []
  | some l => l.takeWhile fun c => c != '/' && c != '?' && c != '#'

/-- Python `str.replace(pat, "")`: delete every occurrence of `pat`. -/
def removeAllFuel (pat : List Char) : Nat → List Char → List Char
  | 0, l => l
  | _ + 1, [] => []
  | fuel + 1, c :: rest =>
    if startsWith pat (c :: rest) && pat.length != 0 then
      removeAllFuel pat fuel ((c :: rest).drop pat.length)
    else c :: removeAllFuel pat fuel rest

def removeAll (pat : List Char) (l : List Char) : List Char :=
  removeAllFuel pat (l.length + 1) l

/-- `gaps._competitor_label`. -/
def competitorLabel (url : String) : String :=
  let host := removeAll "www.".data (lowerL (netlocOf url.data))
  if containsSub "drivenproperties".data host then "Driven Properties"
  else if containsSub "propertyfinder".data host then "Property Finder"
  else if containsSub "bayut".data host then "Bayut"
  else if containsSub "dubizzle".data host then "Dubizzle"
  else if host.isEmpty then "Competitor"
  else ⟨host.takeWhile (· != ':')⟩

example : competitorLabel "https://www.propertyfinder.ae/blog/a" = "Property Finder" := by decide
example : competitorLabel "https://example.com:8080/x" = "example.com" := by decide
example : competitorLabel "" = "Competitor" := by decide

/-- `gaps._count_keywords`: total `\b k \b` findall count over the lowered text. -/
def countKeywords (keywords : List String) (text : String) : Nat :=
  (keywords.map fun k => countWord k.data (lowerL text.data)).sum

/-- `gaps.DUBAI_AREAS` (the source lists "Business Bay" twice). -/
def dubaiAreas : List String :=
  ["JLT", "Jumeirah Lakes Towers", "Downtown Dubai", "Dubai Marina",
   "Business Bay", "DIFC", "Palm Jumeirah", "JBR", "Dubai Hills Estate",
   "Arabian Ranches", "Deira", "Dubai Creek Harbour", "Business Bay"]

/-- `gaps._extract_area_mentions`: collect (case-insensitively, word-bounded)
mentioned areas in order without repeats, drop "Business Bay", keep three. -/
def extractAreaMentions (text : String) : List String :=
  let found := dubaiAreas.foldl
    (fun acc a =>
      if searchWordB (lowerL a.data) (lowerL text.data) then
        if a ∈ acc then acc else acc ++ [a]
      else acc) []
  (found.filter fun x => !(pyNorm x == pyNorm "Business Bay")).take 3

/-- `_has_heading_like(headings, patterns)`, with the rule's pattern list encoded
as one test over the lowered heading. -/
def hasHeadingLike (hs : List String) (test : List Char → Bool) : Bool :=
  hs.any fun h => test (lowerL h.data)

/-- `[r"\bcomparison\b", r"\bvs\b", r"other .*neighbou?rhood"]`. -/
def comparisonHeadingTest (hl : List Char) : Bool :=
  searchWordB "comparison".data hl || searchWordB "vs".data hl ||
    searchGap "other ".data "neighbourhood".data hl ||
    searchGap "other ".data "neighborhood".data hl

def competitorHasComparison (comp : PageData) : Bool :=
  hasHeadingLike comp.headings comparisonHeadingTest ||
    (decide (1 ≤ (extractAreaMentions comp.text).length) &&
      decide (1 ≤ countKeywords ["comparison", "vs", "versus"] comp.text))

def bayutHasComparison (bayut : PageData) : Bool :=
  hasHeadingLike bayut.headings comparisonHeadingTest

/-- `[r"connect", r"location", r"getting around", r"transport"]`. -/
def connectivityHeadingTest (hl : List Char) : Bool :=
  containsSub "connect".data hl || containsSub "location".data hl ||
    containsSub "getting around".data hl || containsSub "transport".data hl

def competitorHasConnectivity (comp : PageData) : Bool :=
  hasHeadingLike comp.headings connectivityHeadingTest ||
    decide (4 ≤ countKeywords
      ["metro", "road", "roads", "highway", "access", "connectivity", "commute"] comp.text)

/-- `[r"connect", r"getting around", r"transport", r"metro", r"road"]`. -/
def bayutConnectivityTest (hl : List Char) : Bool :=
  containsSub "connect".data hl || containsSub "getting around".data hl ||
    containsSub "transport".data hl || containsSub "metro".data hl ||
    containsSub "road".data hl

def bayutHasConnectivityExpanded (bayut : PageData) : Bool :=
  hasHeadingLike bayut.headings bayutConnectivityTest

def competitorHasExtrasWithinPros (comp : PageData) : Bool :=
  decide (3 ≤ countKeywords
    ["michelin", "nightlife", "fine dining", "restaurants", "networking", "lifestyle"] comp.text)

/-- `[r"why .*prefer", r"despite", r"still choose", r"who .*suit"]`. -/
def preferHeadingTest (hl : List Char) : Bool :=
  searchGap "why ".data "prefer".data hl || containsSub "despite".data hl ||
    containsSub "still choose".data hl || searchGap "who ".data "suit".data hl

def competitorHasPreferDespiteCons (comp : PageData) : Bool :=
  hasHeadingLike comp.headings preferHeadingTest ||
    decide (3 ≤ countKeywords
      ["despite", "still choose", "worth it", "suits", "who should"] comp.text)

/-- `[r"final thoughts", r"in summary", r"wrap up"]`. -/
def finalThoughtsTest (hl : List Char) : Bool :=
  containsSub "final thoughts".data hl || containsSub "in summary".data hl ||
    containsSub "wrap up".data hl

def competitorHasFinalThoughts (comp : PageData) : Bool :=
  hasHeadingLike comp.headings finalThoughtsTest

/-- `[r"\bconclusion\b", r"in conclusion"]`. -/
def conclusionTest (hl : List Char) : Bool :=
  searchWordB "conclusion".data hl || containsSub "in conclusion".data hl

def competitorHasConclusion (comp : PageData) : Bool :=
  hasHeadingLike comp.headings conclusionTest

/-- `[r"\bpros\b", r"advantages", r"benefits"]`. -/
def prosHeadingTest (hl : List Char) : Bool :=
  searchWordB "pros".data hl || containsSub "advantages".data hl ||
    containsSub "benefits".data hl

def competitorHasDetailedPros (comp : PageData) : Bool :=
  hasHeadingLike comp.headings prosHeadingTest &&
    decide (6 ≤ countKeywords ["pros", "advantages", "benefits"] comp.text)

/-- `[r"\bcons\b", r"disadvantages", r"drawbacks"]`. -/
def consHeadingTest (hl : List Char) : Bool :=
  searchWordB "cons".data hl || containsSub "disadvantages".data hl ||
    containsSub "drawbacks".data hl

def competitorHasDetailedCons (comp : PageData) : Bool :=
  hasHeadingLike comp.headings consHeadingTest &&
    decide (6 ≤ countKeywords
      ["cons", "disadvantages", "drawbacks", "traffic", "congestion", "high cost",
       "crowded", "green space"] comp.text)

/-- `[r"\bfaq\b", r"frequently asked"]`. -/
def faqHeadingTest (hl : List Char) : Bool :=
  searchWordB "faq".data hl || containsSub "frequently asked".data hl

def competitorHasFaqs (comp : PageData) : Bool :=
  decide (comp.faq_questions ≠ []) ||
    hasHeadingLike comp.headings faqHeadingTest ||
    (decide (3 ≤ (comp.text.data.filter (· = '?')).length) &&
      decide (1 ≤ countKeywords ["cost of living", "schools", "safety", "market"] comp.text))

def bayutHasFaqs (bayut : PageData) : Bool :=
  decide (bayut.faq_questions ≠ []) || hasHeadingLike bayut.headings faqHeadingTest

/-- Python `", ".join`. -/
def joinComma : List String → String
  | [] => ""
  | [a] => a
  | a :: rest => a ++ ", " ++ joinComma rest

/-- The comparison row's description, with or without area mentions. -/
def comparisonDesc (comp : PageData) : String :=
  let areas := extractAreaMentions comp.text
  if areas ≠ [] then
    "Comparison between the area and nearby neighborhoods such as " ++ joinComma areas ++
      ", highlighting differences in price, community feel, and suitability."
  else
    "Comparison between the area and nearby neighborhoods, highlighting differences in price, community feel, and suitability."

/-- The nine conditional row blocks of `analyze_article`, in source order, for
one competitor (`source` is the competitor's label). -/
def rowsFor (bayut comp : PageData) (source : String) : List GapRow :=
  (if competitorHasComparison comp && !(bayutHasComparison bayut) then
    [⟨"Comparison with Other Dubai Neighborhoods", comparisonDesc comp, source⟩] else []) ++
  (if competitorHasConnectivity comp && !(bayutHasConnectivityExpanded bayut) then
    [⟨"Location & Connectivity (expanded)",
      "Competitor explains more specific transport links and connectivity benefits (metro/roads/access) beyond a basic location overview.",
      source⟩] else []) ++
  (if competitorHasExtrasWithinPros comp then
    [⟨"Extras within Pros",
      "Lists lifestyle-driven advantages (e.g., dining, nightlife, networking, modern urban appeal) that are not covered on Bayut.",
      source⟩] else []) ++
  (if competitorHasPreferDespiteCons comp then
    [⟨"Additional Reasons Some Prefer the Area",
      "Explains why some residents still choose the area despite the downsides, focusing on trade-offs and who it suits.",
      source⟩] else []) ++
  (if competitorHasFinalThoughts comp then
    [⟨"Final Thoughts",
      "A final summarizing block weighing pros & cons and describing suitability for different resident types.",
      source⟩] else []) ++
  (if competitorHasConclusion comp then
    [⟨"Conclusion Summary",
      "A concluding wrap-up that helps readers decide if the area fits their needs.",
      source⟩] else []) ++
  (if competitorHasDetailedPros comp then
    [⟨"Detailed “Pros” sub-sections",
      "Competitor breaks pros into clearer themes (location, amenities, community, transportation, family infrastructure) beyond Bayut’s coverage.",
      source⟩] else []) ++
  (if competitorHasDetailedCons comp then
    [⟨"Detailed “Cons” sub-sections",
      "Explicit breakdown of cons such as traffic, cost, crowding, and limited green spaces that Bayut does not cover in the same depth.",
      source⟩] else []) ++
  (if competitorHasFaqs comp then
    (if !(bayutHasFaqs bayut) then
      [⟨"FAQs (missing questions)",
        "Competitor includes FAQs around cost of living, schools, safety, and the local market that Bayut does not address as FAQs.",
        source⟩]
     else
      [⟨"FAQs (missing questions)",
        "Competitor covers additional FAQ topics (e.g., cost of living, schools, safety, market) that are missing from Bayut’s FAQ coverage.",
        source⟩])
   else [])

/-- The de-duplication key: `r["Missing header"].strip().lower()`. -/
def rowKey (r : GapRow) : String := ⟨lowerL (stripWsL r.missingHeader.data)⟩

/-- The `seen`-set de-duplication loop of `analyze_article` (keep first). -/
def dedupRows : List GapRow → List String → List GapRow
  | [], _ => []
  | r :: rest, seen =>
    if rowKey r ∈ seen then dedupRows rest seen
    else r :: dedupRows rest (rowKey r :: seen)

/-- One competitor's deduped rows, with the source label derived from its URL
(`comp["source"] = _competitor_label(url)` in `_parse_page`). -/
def analyzeRowsFor (bayut comp : PageData) : List GapRow :=
  dedupRows (rowsFor bayut comp (competitorLabel comp.url)) []

/-- One entry of `analyze_article`'s `results` list. -/
structure CompetitorResult where
  competitor : String
  url : String
  rows : List GapRow
deriving DecidableEq

/-- `gaps.analyze_article` on pre-parsed pages: the first five competitors each
contribute their label, URL and deduped rows (the surrounding dict echoes
`bayut_url` unchanged). -/
def analyze_article (bayut : PageData) (comps : List PageData) : List CompetitorResult :=
  (comps.take 5).map fun comp =>
    ⟨competitorLabel comp.url, comp.url, analyzeRowsFor bayut comp⟩

example :
    analyzeRowsFor ⟨"", [], "", []⟩ ⟨"", ["Conclusion"], "", []⟩ =
      [⟨"Conclusion Summary",
        "A concluding wrap-up that helps readers decide if the area fits their needs.",
        "Competitor"⟩] := by decide

theorem nodup_keys_dedupRows : ∀ (l : List GapRow) (seen : List String),
    ((dedupRows l seen).map rowKey).Nodup ∧ ∀ r ∈ dedupRows l seen, rowKey r ∉ seen := by
  intro l
  induction l with
  | nil => intro seen; exact ⟨List.nodup_nil, by simp [dedupRows]⟩
  | cons r rest ih =>
    intro seen
    by_cases hk : rowKey r ∈ seen
    · rw [dedupRows, if_pos hk]
      exact ih seen
    · rw [dedupRows, if_neg hk]
      refine ⟨?_, ?_⟩
      · simp only [List.map_cons, List.nodup_cons]
        refine ⟨?_, (ih (rowKey r :: seen)).1⟩
        intro hmem
        rcases List.mem_map.mp hmem with ⟨r', hr', hkey⟩
        exact (ih (rowKey r :: seen)).2 r' hr' (by rw [hkey]; exact List.mem_cons_self _ _)
      · intro r' hr'
        rcases List.mem_cons.mp hr' with rfl | hr'
        · exact hk
        · intro hmem
          exact (ih (rowKey r :: seen)).2 r' hr' (List.mem_cons_of_mem _ hmem)

theorem filter_dedupRows (k : String) : ∀ (l : List GapRow) (seen : List String),
    (dedupRows l seen).filter (fun r => rowKey r == k) =
      if k ∈ seen then [] else (l.filter (fun r => rowKey r == k)).take 1 := by
  intro l
  induction l with
  | nil =>
    intro seen
    by_cases hk : k ∈ seen <;> simp [dedupRows, hk]
  | cons r rest ih =>
    intro seen
    by_cases hs : rowKey r ∈ seen
    · rw [dedupRows, if_pos hs, ih]
      by_cases hsk : k ∈ seen
      · rw [if_pos hsk, if_pos hsk]
      · have hrk : (rowKey r == k) = false := by
          simp only [beq_eq_false_iff_ne, ne_eq]
          rintro rfl
          exact hsk hs
        rw [if_neg hsk, if_neg hsk, List.filter_cons_of_neg (by simp [hrk])]
    · rw [dedupRows, if_neg hs]
      by_cases hrk : rowKey r = k
      · subst hrk
        rw [List.filter_cons_of_pos (by simp), ih,
          if_pos (List.mem_cons_self _ _), if_neg hs,
          List.filter_cons_of_pos (by simp)]
        simp
      · have hrk' : (rowKey r == k) = false := by simp [hrk]
        rw [List.filter_cons_of_neg (by simp [hrk']), ih]
        by_cases hsk : k ∈ seen
        · rw [if_pos (List.mem_cons_of_mem _ hsk), if_pos hsk]
        · have hnot : k ∉ rowKey r :: seen := by
            intro hmem
            rcases List.mem_cons.mp hmem with rfl | hmem
            · exact hrk rfl
            · exact hsk hmem
          rw [if_neg hnot, if_neg hsk, List.filter_cons_of_neg (by simp [hrk'])]

/-! ### Claim C2: the rule-based differ is not symmetric -/

/-- A page that is both primary and competitor in the C2 counterexample: it
answers one FAQ question and has no other content. -/
def c2Page : PageData := ⟨"https://example.com/a", [], "", ["What is X?"]⟩

/-- C2 as stated is refuted for `analyze_article`: with the identical structure
as primary and sole competitor (same headings, same text, same FAQ set), the
FAQ rule still emits a row — its `else` branch fires whenever the competitor
has FAQs, even when the primary's FAQ set is identical. -/
theorem analyze_article_not_symmetric_cex :
    analyzeRowsFor c2Page c2Page =
      [⟨"FAQs (missing questions)",
        "Competitor covers additional FAQ topics (e.g., cost of living, schools, safety, market) that are missing from Bayut’s FAQ coverage.",
        "example.com"⟩] ∧
    analyzeRowsFor c2Page c2Page ≠ [] := by
  refine ⟨by decide, by decide⟩

/-! ### Claim C3: uniqueness of (normalized title, source) pairs -/

/-- C3 counterexample competitor: a page with a "Conclusion" heading, reachable
twice because `analyze_article` accepts the same URL twice in its list. -/
def c3Comp : PageData := ⟨"https://www.propertyfinder.ae/a", ["Conclusion"], "", []⟩

/-- C3 as stated is refuted: one `analyze_article` call with the same competitor
URL listed twice returns two identical (normalized `missing_title`, normalized
`source`) pairs across its output rows — de-duplication is only per competitor,
not across the whole returned output. -/
theorem analyze_article_duplicate_pairs_cex :
    ¬ ((((analyze_article ⟨"", [], "", []⟩ [c3Comp, c3Comp]).map (·.rows)).flatten).map
        fun r => (rowKey r, (⟨lowerL (stripWsL r.source.data)⟩ : String))).Nodup := by
  decide

/-- C3 (amended): within one competitor's deduped row list no two rows share the
same (normalized missing title, source) pair; `update_gaps` likewise never emits
two rows with the same missing section (see `update_gaps_row_per_missing_heading`). -/
theorem analyze_article_rows_nodup (bayut : PageData) (comps : List PageData) :
    ∀ res ∈ analyze_article bayut comps,
      (res.rows.map fun r => (rowKey r, r.source)).Nodup := by
  intro res hres
  rcases List.mem_map.mp hres with ⟨comp, _, rfl⟩
  have h1 : ((dedupRows (rowsFor bayut comp (competitorLabel comp.url)) []).map rowKey).Nodup :=
    (nodup_keys_dedupRows _ _).1
  refine List.Nodup.of_map Prod.fst ?_
  rw [List.map_map]
  exact h1

/-- Witness for C3's amended theorem at a concrete call. -/
theorem analyze_article_rows_nodup_witness :
    ((CompetitorResult.mk "Property Finder" "https://www.propertyfinder.ae/a"
        (analyzeRowsFor ⟨"", [], "", []⟩ c3Comp)) ∈
          analyze_article ⟨"", [], "", []⟩ [c3Comp, c3Comp]) ∧
    (((CompetitorResult.mk "Property Finder" "https://www.propertyfinder.ae/a"
        (analyzeRowsFor ⟨"", [], "", []⟩ c3Comp)).rows.map
          fun r => (rowKey r, r.source)).Nodup) :=
  ⟨by decide, analyze_article_rows_nodup ⟨"", [], "", []⟩ [c3Comp, c3Comp] _ (by decide)⟩

/-! ### Claim C4: FAQ gaps — one row per competitor, fixed evidence -/

theorem filter_ite_singleton {p : GapRow → Bool} {c : Prop} [Decidable c] {r : GapRow}
    (hp : p r = false) : (if c then [r] else []).filter p = [] := by
  by_cases hc : c <;> simp [hc, hp]

/-- The de-duplication key only looks at the row's header. -/
theorem rowKey_ne {h w s k : String}
    (hne : ((⟨lowerL (stripWsL h.data)⟩ : String) == k) = false) :
    (rowKey ⟨h, w, s⟩ == k) = false := hne

theorem rowKey_eq {h w s k : String}
    (he : ((⟨lowerL (stripWsL h.data)⟩ : String) == k) = true) :
    (rowKey ⟨h, w, s⟩ == k) = true := he

/-- C4 (amended): when the primary has no FAQs and a competitor's FAQ set has 3
questions, `analyze_article` emits exactly one FAQ-category row for that
competitor — but its evidence is a fixed generic sentence (cost of living,
schools, safety, market) that does not quote the competitor's actual
questions. -/
theorem faq_gap_single_row_fixed_evidence (bayut comp : PageData)
    (hb : bayutHasFaqs bayut = false) (hc : comp.faq_questions.length = 3) :
    (analyzeRowsFor bayut comp).filter
        (fun r => rowKey r == "faqs (missing questions)") =
      [⟨"FAQs (missing questions)",
        "Competitor includes FAQs around cost of living, schools, safety, and the local market that Bayut does not address as FAQs.",
        competitorLabel comp.url⟩] := by
  have hne : comp.faq_questions ≠ [] := by
    intro h
    rw [h] at hc
    cases hc
  have hcf : competitorHasFaqs comp = true := by
    rw [competitorHasFaqs]
    simp [hne]
  rw [analyzeRowsFor, filter_dedupRows, if_neg (by simp)]
  rw [rowsFor]
  simp only [List.filter_append]
  rw [filter_ite_singleton (rowKey_ne (by decide)), filter_ite_singleton (rowKey_ne (by decide)),
    filter_ite_singleton (rowKey_ne (by decide)), filter_ite_singleton (rowKey_ne (by decide)),
    filter_ite_singleton (rowKey_ne (by decide)), filter_ite_singleton (rowKey_ne (by decide)),
    filter_ite_singleton (rowKey_ne (by decide)), filter_ite_singleton (rowKey_ne (by decide))]
  rw [hcf, hb]
  simp only [List.nil_append, List.append_nil, Bool.not_false, if_pos rfl, if_true]
  rw [List.filter_cons_of_pos (by exact rowKey_eq (by decide))]
  simp

/-- C4 witness: the theorem applied at a concrete primary (no FAQs) and
competitor (three questions). -/
theorem faq_gap_single_row_fixed_evidence_witness :
    (bayutHasFaqs ⟨"", [], "", []⟩ = false ∧
      (PageData.mk "" [] "" ["How far is the metro?", "Are there schools nearby?",
        "What does parking cost?"]).faq_questions.length = 3) ∧
    (analyzeRowsFor ⟨"", [], "", []⟩
        ⟨"", [], "", ["How far is the metro?", "Are there schools nearby?",
          "What does parking cost?"]⟩).filter
        (fun r => rowKey r == "faqs (missing questions)") =
      [⟨"FAQs (missing questions)",
        "Competitor includes FAQs around cost of living, schools, safety, and the local market that Bayut does not address as FAQs.",
        competitorLabel ""⟩] :=
  ⟨⟨by decide, by decide⟩,
    faq_gap_single_row_fixed_evidence ⟨"", [], "", []⟩
      ⟨"", [], "", ["How far is the metro?", "Are there schools nearby?",
        "What does parking cost?"]⟩ (by decide) (by decide)⟩

/-- C4 as stated is refuted: for a competitor with three FAQ questions and a
primary with none, the single FAQ row's evidence is the fixed sentence and
quotes none of the competitor's actual missing questions. -/
theorem faq_gap_evidence_not_questions_cex :
    analyzeRowsFor ⟨"", [], "", []⟩
        ⟨"", [], "", ["How far is the metro?", "Are there schools nearby?",
          "What does parking cost?"]⟩ =
      [⟨"FAQs (missing questions)",
        "Competitor includes FAQs around cost of living, schools, safety, and the local market that Bayut does not address as FAQs.",
        "Competitor"⟩] ∧
    containsSub "How far is the metro?".data
      "Competitor includes FAQs around cost of living, schools, safety, and the local market that Bayut does not address as FAQs.".data = false ∧
    containsSub "Are there schools nearby?".data
      "Competitor includes FAQs around cost of living, schools, safety, and the local market that Bayut does not address as FAQs.".data = false ∧
    containsSub "What does parking cost?".data
      "Competitor includes FAQs around cost of living, schools, safety, and the local market that Bayut does not address as FAQs.".data = false := by
  refine ⟨by decide, by decide, by decide, by decide⟩

/-! ### `analyzers/parser.py`: the document structurer

BeautifulSoup's HTML parsing is the external collaborator; the structurer is
modelled on the parsed element tree (the main container's children, after
`_get_main_container`/`_strip_layout_noise`). -/

/-- A parsed DOM node: a tag element with children, or a raw text node. -/
inductive HNode where
  | text (s : String) : HNode
  | elem (tag : String) (children : List HNode) : HNode

/-- The stripped descendant text pieces of a forest, in document order
(`get_text(" ", strip=True)` strips each string and joins the non-empty ones). -/
def textPiecesL : List HNode → List (List Char)
  | [] => []
  | .text s :: rest => stripWsL s.data :: textPiecesL rest
  | .elem _ cs :: rest => textPiecesL cs ++ textPiecesL rest

/-- `node.get_text(" ", strip=True)`. -/
def getTextNode (n : HNode) : String :=
  ⟨joinSp ((textPiecesL [n]).filter fun p => !p.isEmpty)⟩

/-- `h2`/`h3`/`h4` tag → heading level. -/
def headingLevel (tag : String) : Option Nat :=
  if tag = "h2" then some 2
  else if tag = "h3" then some 3
  else if tag = "h4" then some 4
  else none

/-- `container.find_all(["h2", "h3", "h4"])` in document (preorder) order, with
each heading's cleaned text and its following siblings — the `next_sibling`
chain that `_build_headings_and_sections` walks. -/
def headingNodes : List HNode → List (Nat × String × List HNode)
  | [] => []
  | .text _ :: rest => headingNodes rest
  | .elem t cs :: rest =>
    (match headingLevel t with
     | some lvl => [(lvl, cleanText (getTextNode (.elem t cs)), rest)]
     | none => []) ++ headingNodes cs ++ headingNodes rest

/-- The `headings` output list: every heading with non-empty text. -/
def buildHeadings (container : List HNode) : List (Nat × String) :=
  (headingNodes container).filterMap fun x =>
    if x.2.1 = "" then none else some (x.1, x.2.1)

/-- `h2` stops at the next `h2`, `h3` at `h2`/`h3`, `h4` at any heading. -/
def stopTags (level : Nat) : List String :=
  if level = 2 then ["h2"]
  else if level = 3 then ["h2", "h3"]
  else ["h2", "h3", "h4"]

def collectTags : List String := ["p", "li", "ul", "ol", "div", "span"]

/-- The sibling walk: collect cleaned texts (longer than 10 characters) of
`p/li/ul/ol/div/span` siblings, stop at a stop-level heading, cap at 20 chunks
(raw text siblings have no tag name and are never collected). -/
def walkChunks (stop : List String) (count : Nat) : List HNode → List String
  | [] => []
  | .text _ :: rest => walkChunks stop count rest
  | .elem t cs :: rest =>
    if t ∈ stop then []
    else if t ∈ collectTags then
      let txt := cleanText (getTextNode (.elem t cs))
      if decide (txt ≠ "") && decide (10 < txt.data.length) then
        if 20 ≤ count + 1 then [txt]
        else txt :: walkChunks stop (count + 1) rest
      else walkChunks stop count rest
    else walkChunks stop count rest

/-- `section_texts[(level, title)] = _clean_text(" ".join(chunks))`. -/
def sectionTextFor (lvl : Nat) (siblings : List HNode) : String :=
  cleanText ⟨joinSp ((walkChunks (stopTags lvl) 0 siblings).map (·.data))⟩

/-- Python dict assignment on an insertion-ordered association list: replace in
place if the key exists, else append. -/
def upsertSection (key : Nat × String) (val : String) :
    List ((Nat × String) × String) → List ((Nat × String) × String)
  | [] => [(key, val)]
  | (k, v) :: rest =>
    if k = key then (k, val) :: rest else (k, v) :: upsertSection key val rest

/-- The `(level, title) ↦ text` assignments of the second loop of
`_build_headings_and_sections`, in node order (empty titles skipped). -/
def sectionWrites (container : List HNode) : List ((Nat × String) × String) :=
  (headingNodes container).filterMap fun x =>
    if x.2.1 = "" then none else some ((x.1, x.2.1), sectionTextFor x.1 x.2.2)

/-- The `section_texts` dict of `_build_headings_and_sections`. -/
def buildSectionTexts (container : List HNode) : List ((Nat × String) × String) :=
  (sectionWrites container).foldl (fun m kv => upsertSection kv.1 kv.2 m) []

/-- Association-list lookup on the section dict. -/
def lookupSec (k : Nat × String) : List ((Nat × String) × String) → Option String
  | [] => none
  | (k', v) :: rest => if k' = k then some v else lookupSec k rest

example :
    buildHeadings [.elem "h2" [.text "Overview"], .elem "p" [.text "some body text here"],
        .elem "h3" [.text " Sub  topic "]] =
      [(2, "Overview"), (3, "Sub topic")] := by
  simp only [buildHeadings, headingNodes, headingLevel, getTextNode, textPiecesL]
  decide

example :
    buildSectionTexts [.elem "h2" [.text "Overview"],
        .elem "p" [.text "some body text here"], .elem "h2" [.text "Next"]] =
      [((2, "Overview"), "some body text here"), ((2, "Next"), "")] := by
  simp only [buildSectionTexts, sectionWrites, sectionTextFor, headingNodes,
    headingLevel, getTextNode, textPiecesL]
  simp [List.filterMap_cons, walkChunks, stopTags, collectTags, getTextNode, textPiecesL]
  decide

/-! ### Claim C5: duplicate headings in the structurer -/

theorem lookupSec_upsert (k key : Nat × String) (v : String) :
    ∀ m : List ((Nat × String) × String),
      lookupSec k (upsertSection key v m) = if k = key then some v else lookupSec k m := by
  intro m
  induction m with
  | nil =>
    by_cases hk : k = key
    · subst hk
      simp [upsertSection, lookupSec]
    · have hk' : ¬ key = k := fun h => hk h.symm
      simp [upsertSection, lookupSec, hk, hk']
  | cons kv rest ih =>
    obtain ⟨k0, v0⟩ := kv
    by_cases h1 : k0 = key
    · by_cases h2 : k0 = k
      · subst h2
        subst h1
        simp [upsertSection, lookupSec]
      · subst h1
        have h3 : ¬ k = k0 := fun h => h2 h.symm
        simp [upsertSection, lookupSec, h2, h3]
    · by_cases h2 : k0 = k
      · subst h2
        have h3 : ¬ k0 = key := h1
        simp [upsertSection, lookupSec, h1]
      · simp [upsertSection, lookupSec, h1, h2, ih]

theorem mem_keys_upsertSection {k' key : Nat × String} {v : String} :
    ∀ {m : List ((Nat × String) × String)},
      k' ∈ (upsertSection key v m).map Prod.fst ↔ k' = key ∨ k' ∈ m.map Prod.fst := by
  intro m
  induction m with
  | nil => simp [upsertSection]
  | cons kv rest ih =>
    obtain ⟨k0, v0⟩ := kv
    by_cases hk : k0 = key
    · subst hk
      rw [upsertSection, if_pos rfl]
      simp only [List.map_cons, List.mem_cons]
      tauto
    · rw [upsertSection, if_neg hk]
      simp only [List.map_cons, List.mem_cons, ih]
      tauto

theorem nodup_keys_upsertSection {key : Nat × String} {v : String} :
    ∀ {m : List ((Nat × String) × String)}, (m.map Prod.fst).Nodup →
      ((upsertSection key v m).map Prod.fst).Nodup := by
  intro m
  induction m with
  | nil => intro _; simp [upsertSection]
  | cons kv rest ih =>
    obtain ⟨k0, v0⟩ := kv
    intro h
    simp only [List.map_cons, List.nodup_cons] at h
    by_cases hk : k0 = key
    · subst hk
      rw [upsertSection, if_pos rfl]
      simp only [List.map_cons, List.nodup_cons]
      exact h
    · rw [upsertSection, if_neg hk]
      simp only [List.map_cons, List.nodup_cons]
      refine ⟨?_, ih h.2⟩
      rw [mem_keys_upsertSection]
      rintro (rfl | hmem)
      · exact hk rfl
      · exact h.1 hmem

theorem lookupSec_foldl_upsert (k : Nat × String) :
    ∀ (ws : List ((Nat × String) × String)) (m : List ((Nat × String) × String)),
      lookupSec k (ws.foldl (fun m kv => upsertSection kv.1 kv.2 m) m) =
        match lookupSec k ws.reverse with
        | some v => some v
        | none => lookupSec k m := by
  intro ws
  induction ws using List.reverseRecOn with
  | nil => intro m; simp [lookupSec]
  | append_singleton ws w ih =>
    intro m
    rw [List.foldl_append, List.foldl_cons, List.foldl_nil, List.reverse_append]
    simp only [List.reverse_cons, List.reverse_nil, List.nil_append, List.singleton_append]
    rw [lookupSec_upsert]
    obtain ⟨kw, vw⟩ := w
    by_cases hk : k = kw
    · subst hk
      rw [ih]
      simp [lookupSec]
    · have hk2 : ¬ kw = k := fun h => hk h.symm
      rw [ih]
      simp [lookupSec, hk, hk2]

theorem nodup_keys_buildSectionTexts_aux :
    ∀ (ws m : List ((Nat × String) × String)), (m.map Prod.fst).Nodup →
      ((ws.foldl (fun m kv => upsertSection kv.1 kv.2 m) m).map Prod.fst).Nodup := by
  intro ws
  induction ws with
  | nil => intro m h; exact h
  | cons w rest ih =>
    intro m h
    rw [List.foldl_cons]
    exact ih _ (nodup_keys_upsertSection h)

/-- C5 (amended): the structurer's `section_texts` dict has one entry per exact
`(level, cleaned title)` pair, and that entry's text is the LAST occurrence's
attributed text — a later duplicate heading overwrites the earlier text instead
of appending to it (and headings that merely normalize alike but differ in raw
text or level are distinct keys). -/
theorem section_texts_last_write_wins (container : List HNode) :
    ((buildSectionTexts container).map Prod.fst).Nodup ∧
    ∀ k, lookupSec k (buildSectionTexts container) =
      lookupSec k (sectionWrites container).reverse := by
  constructor
  · exact nodup_keys_buildSectionTexts_aux (sectionWrites container) [] (by simp)
  · intro k
    rw [buildSectionTexts, lookupSec_foldl_upsert]
    cases lookupSec k (sectionWrites container).reverse <;> rfl

/-- The C5 counterexample container: two identical `h2` headings "Pricing", the
first followed by one paragraph, the second by another. -/
def c5Tree : List HNode :=
  [.elem "h2" [.text "Pricing"], .elem "p" [.text "aaaa aaaa aaaa"],
   .elem "h2" [.text "Pricing"], .elem "p" [.text "bbbb bbbb bbbb"]]

/-- C5 as stated is refuted: both headings normalize (indeed are equal) to the
same key, and the resulting structure keeps a single entry — but its text is the
SECOND occurrence's text alone: the later write overwrites the earlier
"aaaa aaaa aaaa", which is not appended and no longer appears anywhere. -/
theorem structurer_duplicate_overwrites_cex :
    buildSectionTexts c5Tree = [((2, "Pricing"), "bbbb bbbb bbbb")] ∧
    sectionWrites c5Tree =
      [((2, "Pricing"), "aaaa aaaa aaaa"), ((2, "Pricing"), "bbbb bbbb bbbb")] ∧
    containsSub "aaaa".data "bbbb bbbb bbbb".data = false := by
  refine ⟨?_, ?_, by decide⟩
  · simp only [c5Tree, buildSectionTexts, sectionWrites, sectionTextFor, headingNodes,
      headingLevel, getTextNode, textPiecesL]
    simp [List.filterMap_cons, walkChunks, stopTags, collectTags, getTextNode, textPiecesL]
    decide
  · simp only [c5Tree, sectionWrites, sectionTextFor, headingNodes,
      headingLevel, getTextNode, textPiecesL]
    simp [List.filterMap_cons, walkChunks, stopTags, collectTags, getTextNode, textPiecesL]
    decide

/-! ### Python string ordering: totality and transitivity -/

theorem lexLeChars_total : ∀ a b : List Char, lexLeChars a b = true ∨ lexLeChars b a = true := by
  intro a
  induction a with
  | nil => intro b; left; rfl
  | cons x xs ih =>
    intro b
    cases b with
    | nil => right; rfl
    | cons y ys =>
      by_cases h1 : x.toNat < y.toNat
      · left
        simp [lexLeChars, h1]
      · by_cases h2 : y.toNat < x.toNat
        · right
          simp [lexLeChars, h2]
        · rcases ih ys with h | h
          · left
            simp [lexLeChars, h1, h2, h]
          · right
            simp [lexLeChars, h1, h2, h]

theorem lexLeChars_trans :
    ∀ a b c : List Char, lexLeChars a b = true → lexLeChars b c = true →
      lexLeChars a c = true := by
  intro a
  induction a with
  | nil => intro b c _ _; rfl
  | cons x xs ih =>
    intro b c hab hbc
    cases b with
    | nil => simp [lexLeChars] at hab
    | cons y ys =>
      cases c with
      | nil => simp [lexLeChars] at hbc
      | cons z zs =>
        by_cases h1 : x.toNat < y.toNat <;> by_cases h2 : y.toNat < z.toNat
        · simp [lexLeChars, (by omega : x.toNat < z.toNat)]
        · by_cases h3 : z.toNat < y.toNat
          · simp [lexLeChars, h2, h3] at hbc
          · simp [lexLeChars, (by omega : x.toNat < z.toNat)]
        · by_cases h4 : y.toNat < x.toNat
          · simp [lexLeChars, h1, h4] at hab
          · simp [lexLeChars, (by omega : x.toNat < z.toNat)]
        · by_cases h4 : y.toNat < x.toNat
          · simp [lexLeChars, h1, h4] at hab
          · by_cases h3 : z.toNat < y.toNat
            · simp [lexLeChars, h2, h3] at hbc
            · have hxz1 : ¬ x.toNat < z.toNat := by omega
              have hxz2 : ¬ z.toNat < x.toNat := by omega
              simp only [lexLeChars, h1, h4, if_false] at hab
              simp only [lexLeChars, h2, h3, if_false] at hbc
              simp [lexLeChars, hxz1, hxz2, ih ys zs hab hbc]

instance : IsTotal String strLe :=
  ⟨fun a b => lexLeChars_total a.data b.data⟩

instance : IsTrans String strLe :=
  ⟨fun a b c hab hbc => lexLeChars_trans a.data b.data c.data hab hbc⟩

/-! ### `parser._extract_faq_questions` -/

/-- `re.findall(r"([A-Z][^?]{10,120}\?)", blob)`: a non-overlapping left-to-right
scan.  At an uppercase letter the greedy `[^?]{10,120}` can only be completed by
`\?` when the maximal `?`-free run after the letter is 10–120 characters long
and is immediately followed by `?` (a longer run leaves no position for `\?`,
shorter than 10 cannot reach the minimum). -/
def findQuestionsFuel : Nat → List Char → List (List Char)
  | 0, _ => []
  | _ + 1, [] => []
  | fuel + 1, c :: rest =>
    if 65 ≤ c.toNat && c.toNat ≤ 90 then
      let run := rest.takeWhile fun d => d != '?'
      if 10 ≤ run.length && run.length ≤ 120 &&
          ((rest.drop run.length).head? == some '?') then
        (c :: (run ++ ['?'])) :: findQuestionsFuel fuel (rest.drop (run.length + 1))
      else findQuestionsFuel fuel rest
    else findQuestionsFuel fuel rest

def findQuestions (blob : List Char) : List (List Char) :=
  findQuestionsFuel (blob.length + 1) blob

/-- Headings whose lowered text contains "faq" or "frequently asked". -/
def faqTitles (headings : List (Nat × String)) : List (Nat × String) :=
  headings.filter fun h =>
    containsSub "faq".data (lowerL h.2.data) ||
      containsSub "frequently asked".data (lowerL h.2.data)

/-- Python `set.add` on the insertion-ordered list model of the question set. -/
def addQuestion (q : String) (qs : List String) : List String :=
  if q ∈ qs then qs else qs ++ [q]

/-- `parser._extract_faq_questions(headings, section_texts, schema_types)`
(the `schema_types` argument is unused by the source body too). -/
def extractFaqQuestions (headings : List (Nat × String))
    (sectionTexts : List ((Nat × String) × String)) (_schemaTypes : List String) :
    List String :=
  let qs1 := (faqTitles headings).foldl
    (fun qs lt =>
      let blob := (lookupSec lt sectionTexts).getD ""
      (findQuestions blob.data).foldl (fun qs m => addQuestion (cleanText ⟨m⟩) qs) qs) []
  let qs2 := headings.foldl
    (fun qs h =>
      if '?' ∈ h.2.data ∧ h.2.data.length ≤ 140 then addQuestion (cleanText h.2) qs else qs)
    qs1
  sortedStrings (qs2.filter fun q => decide (q ≠ ""))

example :
    extractFaqQuestions
      [(2, "FAQs"), (3, "Where is it? Extra tail"), (2, "Why choose Business Bay?")]
      [((2, "FAQs"), "Some lead in. How much does renting cost? More. Are pets allowed there?")]
      [] =
      ["More. Are pets allowed there?", "Some lead in. How much does renting cost?",
        "Where is it? Extra tail", "Why choose Business Bay?"] := by decide

/-! ### Claim C10: shape of the extracted FAQ question list -/

theorem nodup_addQuestion {q : String} {qs : List String} (h : qs.Nodup) :
    (addQuestion q qs).Nodup := by
  rw [addQuestion]
  by_cases hq : q ∈ qs
  · rw [if_pos hq]; exact h
  · rw [if_neg hq]
    simp [List.nodup_append, h, hq]

theorem nodup_foldl_preserve {α : Type} (step : List String → α → List String)
    (hstep : ∀ qs a, qs.Nodup → (step qs a).Nodup) :
    ∀ (l : List α) (qs : List String), qs.Nodup → (l.foldl step qs).Nodup := by
  intro l
  induction l with
  | nil => intro qs h; exact h
  | cons a rest ih =>
    intro qs h
    rw [List.foldl_cons]
    exact ih _ (hstep qs a h)

/-- C10 (confirmed): for every input, the parser's FAQ question list is sorted
ascending in code-point lexicographic order, has no duplicates and contains no
empty string — so neither the document order nor the first-seen order of the
questions survives into the output. -/
theorem faq_question_list_shape (headings : List (Nat × String))
    (sectionTexts : List ((Nat × String) × String)) (schemaTypes : List String) :
    (extractFaqQuestions headings sectionTexts schemaTypes).Sorted strLe ∧
    (extractFaqQuestions headings sectionTexts schemaTypes).Nodup ∧
    "" ∉ extractFaqQuestions headings sectionTexts schemaTypes := by
  have hnodup2 :
      (headings.foldl
        (fun qs h =>
          if '?' ∈ h.2.data ∧ h.2.data.length ≤ 140 then addQuestion (cleanText h.2) qs else qs)
        ((faqTitles headings).foldl
          (fun qs lt =>
            let blob := (lookupSec lt sectionTexts).getD ""
            (findQuestions blob.data).foldl (fun qs m => addQuestion (cleanText ⟨m⟩) qs) qs)
          [])).Nodup := by
    apply nodup_foldl_preserve
    · intro qs h hnd
      by_cases hc : '?' ∈ h.2.data ∧ h.2.data.length ≤ 140
      · rw [if_pos hc]; exact nodup_addQuestion hnd
      · rw [if_neg hc]; exact hnd
    · apply nodup_foldl_preserve
      · intro qs lt hnd
        exact nodup_foldl_preserve _ (fun qs m hnd' => nodup_addQuestion hnd') _ _ hnd
      · exact List.nodup_nil
  refine ⟨List.sorted_insertionSort strLe _, ?_, ?_⟩
  · exact ((List.perm_insertionSort strLe _).symm).nodup (hnodup2.filter _)
  · intro hmem
    have hmem' := (List.perm_insertionSort strLe _).subset hmem
    have := (List.mem_filter.mp hmem').2
    simp at this

/-! ### Claim C9: graceful degradation on empty input -/

theorem filterMap_some_eq_map {α β : Type} (g : α → β) :
    ∀ l : List α, l.filterMap (fun x => some (g x)) = l.map g := by
  intro l
  induction l with
  | nil => rfl
  | cons a rest ih => simp [List.filterMap_cons, ih]

/-- C9 (confirmed): (1) an empty parsed container yields a structure with no
headings, no section texts and no FAQ questions rather than failing; (2) a
competitor whose parsed page has no `h2`/`h3` headings contributes zero gap rows
wherever it is placed in the batch; (3) with an empty primary every entry of the
competitor map is reported missing — the maximal gap set. -/
theorem graceful_degradation_empty :
    (buildHeadings [] = [] ∧ buildSectionTexts [] = [] ∧
      extractFaqQuestions [] [] [] = []) ∧
    (∀ (b : ParsedDoc) (l1 l2 : List CompEntry) (u : String)
        (st : List (String × String)) (fq : List String),
      update_gaps b (l1 ++ ⟨u, ⟨[], [], st, fq⟩⟩ :: l2) = update_gaps b (l1 ++ l2)) ∧
    (∀ (cs : List CompEntry) (st : List (String × String)) (fq : List String),
      update_gaps ⟨[], [], st, fq⟩ cs =
        (competitorMap cs).map fun kv => ⟨kv.1, sortedStrings kv.2⟩) := by
  refine ⟨⟨?_, ?_, ?_⟩, ?_, ?_⟩
  · simp [buildHeadings, headingNodes]
  · simp [buildSectionTexts, sectionWrites, headingNodes]
  · rfl
  · intro b l1 l2 u st fq
    have hmap : competitorMap (l1 ++ ⟨u, ⟨[], [], st, fq⟩⟩ :: l2) = competitorMap (l1 ++ l2) := by
      rw [competitorMap, competitorMap, List.foldl_append, List.foldl_append, List.foldl_cons]
      rfl
    rw [update_gaps, update_gaps, hmap]
  · intro cs st fq
    rw [update_gaps]
    have hnone : ∀ kv : String × List String,
        (if kv.1 ∈ bayutH ⟨[], [], st, fq⟩ then none
          else some (GapEntry.mk kv.1 (sortedStrings kv.2))) =
          some (GapEntry.mk kv.1 (sortedStrings kv.2)) := by
      intro kv
      rw [if_neg]
      simp [bayutH]
    calc (competitorMap cs).filterMap (fun kv =>
          if kv.1 ∈ bayutH ⟨[], [], st, fq⟩ then none
          else some (GapEntry.mk kv.1 (sortedStrings kv.2)))
        = (competitorMap cs).filterMap (fun kv => some (GapEntry.mk kv.1 (sortedStrings kv.2))) := by
          exact List.filterMap_congr fun kv _ => hnone kv
      _ = (competitorMap cs).map fun kv => GapEntry.mk kv.1 (sortedStrings kv.2) :=
          filterMap_some_eq_map _ _
